import Mathlib

/-!
Verification development for the OpenAI-style protocol adapter and its
streaming state machine (src-tauri/src/llm/protocols/openai_protocol.rs)
and the downstream stream collector
(src-tauri/src/llm/ai_services/stream_collector.rs).

JSON values are modelled by an inductive `Json` type; `parseJson` embeds
`serde_json::from_str` for the JSON fragment actually exercised by the
adapter (numbers are modelled as arbitrary-precision integers, fractional
and exponent forms are rejected; duplicate object keys keep the last
value, as serde does).  Rust `HashMap`/`HashSet` fields are modelled as
association lists / membership lists; only lookup, insert and membership
are used by the source, so the modelling is faithful up to iteration
order, which the source never relies on (emission order always comes from
`tool_call_order`).
-/

/-- Characters accepted by Rust's char::is_whitespace (Unicode White_Space),
which str::trim strips from both ends. -/
def isRustWs (c : Char) : Bool :=
  let n := c.toNat
  n == 9 || n == 10 || n == 11 || n == 12 || n == 13 || n == 32 ||
  n == 0x85 || n == 0xa0 || n == 0x1680 ||
  (Nat.ble 0x2000 n && Nat.ble n 0x200a) ||
  n == 0x2028 || n == 0x2029 || n == 0x202f || n == 0x205f || n == 0x3000

/-- Embedding of Rust str::trim: strip whitespace from both ends. -/
def rustTrim (s : String) : String :=
  String.mk (((s.data.dropWhile fun c => isRustWs c).reverse.dropWhile fun c => isRustWs c).reverse)

/-- JSON values, the model of serde_json::Value.  Object members are kept
in insertion order; duplicate keys are collapsed (last value wins) at
parse time, mirroring serde's map semantics. -/
inductive Json where
  | null : Json
  | bool (b : Bool) : Json
  | num (n : Int) : Json
  | str (s : String) : Json
  | arr (xs : List Json) : Json
  | obj (kvs : List (String × Json)) : Json
deriving Inhabited, Repr

mutual

/-- Decidable equality on Json (the derive handler does not support the
nested inductive, so the decision procedure is written out). -/
def Json.decEq : (a b : Json) → Decidable (a = b)
  | .null, .null => isTrue rfl
  | .bool x, .bool y =>
    if h : x = y then isTrue (by rw [h])
    else isFalse (fun hh => h (by injection hh))
  | .num x, .num y =>
    if h : x = y then isTrue (by rw [h])
    else isFalse (fun hh => h (by injection hh))
  | .str x, .str y =>
    if h : x = y then isTrue (by rw [h])
    else isFalse (fun hh => h (by injection hh))
  | .arr xs, .arr ys =>
    (match Json.decEqList xs ys with
     | isTrue h => isTrue (by rw [h])
     | isFalse h => isFalse (fun hh => h (by injection hh)))
  | .obj xs, .obj ys =>
    (match Json.decEqObj xs ys with
     | isTrue h => isTrue (by rw [h])
     | isFalse h => isFalse (fun hh => h (by injection hh)))
  | .null, .bool _ => isFalse (fun h => Json.noConfusion h)
  | .null, .num _ => isFalse (fun h => Json.noConfusion h)
  | .null, .str _ => isFalse (fun h => Json.noConfusion h)
  | .null, .arr _ => isFalse (fun h => Json.noConfusion h)
  | .null, .obj _ => isFalse (fun h => Json.noConfusion h)
  | .bool _, .null => isFalse (fun h => Json.noConfusion h)
  | .bool _, .num _ => isFalse (fun h => Json.noConfusion h)
  | .bool _, .str _ => isFalse (fun h => Json.noConfusion h)
  | .bool _, .arr _ => isFalse (fun h => Json.noConfusion h)
  | .bool _, .obj _ => isFalse (fun h => Json.noConfusion h)
  | .num _, .null => isFalse (fun h => Json.noConfusion h)
  | .num _, .bool _ => isFalse (fun h => Json.noConfusion h)
  | .num _, .str _ => isFalse (fun h => Json.noConfusion h)
  | .num _, .arr _ => isFalse (fun h => Json.noConfusion h)
  | .num _, .obj _ => isFalse (fun h => Json.noConfusion h)
  | .str _, .null => isFalse (fun h => Json.noConfusion h)
  | .str _, .bool _ => isFalse (fun h => Json.noConfusion h)
  | .str _, .num _ => isFalse (fun h => Json.noConfusion h)
  | .str _, .arr _ => isFalse (fun h => Json.noConfusion h)
  | .str _, .obj _ => isFalse (fun h => Json.noConfusion h)
  | .arr _, .null => isFalse (fun h => Json.noConfusion h)
  | .arr _, .bool _ => isFalse (fun h => Json.noConfusion h)
  | .arr _, .num _ => isFalse (fun h => Json.noConfusion h)
  | .arr _, .str _ => isFalse (fun h => Json.noConfusion h)
  | .arr _, .obj _ => isFalse (fun h => Json.noConfusion h)
  | .obj _, .null => isFalse (fun h => Json.noConfusion h)
  | .obj _, .bool _ => isFalse (fun h => Json.noConfusion h)
  | .obj _, .num _ => isFalse (fun h => Json.noConfusion h)
  | .obj _, .str _ => isFalse (fun h => Json.noConfusion h)
  | .obj _, .arr _ => isFalse (fun h => Json.noConfusion h)

/-- Decidable equality on lists of Json values. -/
def Json.decEqList : (xs ys : List Json) → Decidable (xs = ys)
  | [], [] => isTrue rfl
  | [], _ :: _ => isFalse (fun h => List.noConfusion h)
  | _ :: _, [] => isFalse (fun h => List.noConfusion h)
  | x :: xs, y :: ys =>
    (match Json.decEq x y with
     | isFalse h1 => isFalse (fun hh => h1 (by injection hh))
     | isTrue h1 =>
       match Json.decEqList xs ys with
       | isTrue h2 => isTrue (by rw [h1, h2])
       | isFalse h2 => isFalse (fun hh => h2 (by injection hh)))

/-- Decidable equality on lists of object members. -/
def Json.decEqObj : (xs ys : List (String × Json)) → Decidable (xs = ys)
  | [], [] => isTrue rfl
  | [], _ :: _ => isFalse (fun h => List.noConfusion h)
  | _ :: _, [] => isFalse (fun h => List.noConfusion h)
  | (k1, v1) :: xs, (k2, v2) :: ys =>
    (match (instDecidableEqString k1 k2 : Decidable (k1 = k2)) with
     | isFalse h0 =>
       isFalse (fun hh => h0 (congrArg (fun l => (l.headD (k1, v1)).1) hh))
     | isTrue h0 =>
       match Json.decEq v1 v2 with
       | isFalse h1 =>
         isFalse (fun hh => h1 (congrArg (fun l => (l.headD (k1, v1)).2) hh))
       | isTrue h1 =>
         match Json.decEqObj xs ys with
         | isTrue h2 => isTrue (by rw [h0, h1, h2])
         | isFalse h2 => isFalse (fun hh => h2 (by injection hh)))

end

instance : DecidableEq Json := Json.decEq

/-- Decidable equality for Except results, used to decide concrete
parser-call outcomes. -/
def exceptDecEq {e a : Type} [DecidableEq e] [DecidableEq a] : DecidableEq (Except e a)
  | .error x, .error y =>
    if h : x = y then isTrue (by rw [h]) else isFalse (fun hh => h (by injection hh))
  | .ok x, .ok y =>
    if h : x = y then isTrue (by rw [h]) else isFalse (fun hh => h (by injection hh))
  | .error _, .ok _ => isFalse (fun h => Except.noConfusion h)
  | .ok _, .error _ => isFalse (fun h => Except.noConfusion h)

instance {e a : Type} [DecidableEq e] [DecidableEq a] : DecidableEq (Except e a) := exceptDecEq

/-- Association-list lookup, the model of HashMap::get / Map::get. -/
def alookup {κ α : Type} [DecidableEq κ] : List (κ × α) → κ → Option α
  | [], _ => none
  | (k, v) :: rest, key => if k = key then some v else alookup rest key

/-- Association-list insert-or-replace, the model of HashMap::insert and
of writing through an occupied Entry. -/
def aupdate {κ α : Type} [DecidableEq κ] : List (κ × α) → κ → α → List (κ × α)
  | [], key, v => [(key, v)]
  | (k, w) :: rest, key, v =>
    if k = key then (k, v) :: rest else (k, w) :: aupdate rest key v

/-- Insert only when the key is absent, the model of Entry::or_insert_with. -/
def aInsertIfAbsent {κ α : Type} [DecidableEq κ] (m : List (κ × α)) (k : κ) (v : α) :
    List (κ × α) :=
  match alookup m k with
  | some _ => m
  | none => m ++ [(k, v)]

/-- Member access on a JSON object, the model of Value::get(key). -/
def Json.getMember : Json → String → Option Json
  | .obj kvs, key => alookup kvs key
  | _, _ => none

/-- String extraction, the model of Value::as_str. -/
def Json.asStr? : Json → Option String
  | .str s => some s
  | _ => none

/-- Array extraction, the model of Value::as_array. -/
def Json.asArr? : Json → Option (List Json)
  | .arr xs => some xs
  | _ => none

/-- Unsigned-64 extraction, the model of Value::as_u64. -/
def Json.asNat? : Json → Option Nat
  | .num n => if 0 ≤ n ∧ n < 2 ^ 64 then some n.toNat else none
  | _ => none

/-- Signed-64 extraction, the model of Value::as_i64. -/
def Json.asI64? : Json → Option Int
  | .num n => if -(2 ^ 63) ≤ n ∧ n < 2 ^ 63 then some n else none
  | _ => none

/-- Two's-complement truncation to 32 bits, the model of the Rust cast
expression writing an i64 into an i32 field. -/
def toI32 (n : Int) : Int := (n + 2 ^ 31) % 2 ^ 32 - 2 ^ 31

/-- JSON whitespace skipped by serde between tokens. -/
def skipWs (cs : List Char) : List Char :=
  cs.dropWhile fun c => c == ' ' || c == '\t' || c == '\n' || c == '\r'

/-- Value of one hexadecimal digit. -/
def hexDigitVal (c : Char) : Option Nat :=
  if '0' ≤ c ∧ c ≤ '9' then some (c.toNat - 48)
  else if 'a' ≤ c ∧ c ≤ 'f' then some (c.toNat - 87)
  else if 'A' ≤ c ∧ c ≤ 'F' then some (c.toNat - 55)
  else none

/-- Four hexadecimal digits, used by the \uXXXX string escape. -/
def hex4 : List Char → Option (Nat × List Char)
  | a :: b :: c :: d :: rest =>
    match hexDigitVal a, hexDigitVal b, hexDigitVal c, hexDigitVal d with
    | some x, some y, some z, some w => some (((x * 16 + y) * 16 + z) * 16 + w, rest)
    | _, _, _, _ => none
  | _ => none

/-- Body of a JSON string literal after the opening quote; handles the
escape sequences serde accepts, including surrogate pairs, and rejects
raw control characters. -/
def parseStringAux : Nat → List Char → String → Option (String × List Char)
  | 0, _, _ => none
  | fuel + 1, cs, acc =>
    match cs with
    | [] => none
    | '"' :: rest => some (acc, rest)
    | '\\' :: rest =>
      (match rest with
       | [] => none
       | e :: rest2 =>
         if e = '"' then parseStringAux fuel rest2 (acc.push '"')
         else if e = '\\' then parseStringAux fuel rest2 (acc.push '\\')
         else if e = '/' then parseStringAux fuel rest2 (acc.push '/')
         else if e = 'b' then parseStringAux fuel rest2 (acc.push (Char.ofNat 8))
         else if e = 'f' then parseStringAux fuel rest2 (acc.push (Char.ofNat 12))
         else if e = 'n' then parseStringAux fuel rest2 (acc.push '\n')
         else if e = 'r' then parseStringAux fuel rest2 (acc.push '\r')
         else if e = 't' then parseStringAux fuel rest2 (acc.push '\t')
         else if e = 'u' then
           match hex4 rest2 with
           | none => none
           | some (n, r3) =>
             if 0xd800 ≤ n ∧ n ≤ 0xdbff then
               match r3 with
               | '\\' :: 'u' :: r4 =>
                 (match hex4 r4 with
                  | some (m, r5) =>
                    if 0xdc00 ≤ m ∧ m ≤ 0xdfff then
                      parseStringAux fuel r5
                        (acc.push (Char.ofNat (0x10000 + (n - 0xd800) * 0x400 + (m - 0xdc00))))
                    else none
                  | none => none)
               | _ => none
             else if 0xdc00 ≤ n ∧ n ≤ 0xdfff then none
             else parseStringAux fuel r3 (acc.push (Char.ofNat n))
         else none)
    | c :: rest => if c.toNat < 0x20 then none else parseStringAux fuel rest (acc.push c)

/-- Numeric value of a digit string. -/
def digitsToNat (ds : List Char) : Nat :=
  ds.foldl (fun a c => a * 10 + (c.toNat - 48)) 0

/-- Integer literal from sign and digits. -/
def mkIntNum (neg : Bool) (ds : List Char) : Json :=
  .num (if neg then -(digitsToNat ds : Int) else (digitsToNat ds : Int))

/-- JSON number parser; integers only (the adapter never feeds fractional
numbers to the paths under verification), with serde's leading-zero rule. -/
def parseNumber (cs : List Char) : Option (Json × List Char) :=
  let neg : Bool := match cs with | '-' :: _ => true | _ => false
  let cs1 := match cs with | '-' :: r => r | _ => cs
  let ds := cs1.takeWhile fun c => c.isDigit
  let rest := cs1.dropWhile fun c => c.isDigit
  if ds = [] then none
  else if 1 < ds.length ∧ ds.head? = some '0' then none
  else match rest with
    | c :: _ => if c = '.' ∨ c = 'e' ∨ c = 'E' then none else some (mkIntNum neg ds, rest)
    | [] => some (mkIntNum neg ds, rest)

mutual

/-- Fueled JSON value parser (recursive descent), the model of
serde_json's grammar on the integer fragment. -/
def parseValueF : Nat → List Char → Option (Json × List Char)
  | 0, _ => none
  | fuel + 1, cs0 =>
    match skipWs cs0 with
    | 'n' :: 'u' :: 'l' :: 'l' :: rest => some (.null, rest)
    | 't' :: 'r' :: 'u' :: 'e' :: rest => some (.bool true, rest)
    | 'f' :: 'a' :: 'l' :: 's' :: 'e' :: rest => some (.bool false, rest)
    | '"' :: rest =>
      (parseStringAux (rest.length + 1) rest "").map fun p => (.str p.1, p.2)
    | '[' :: rest =>
      (match skipWs rest with
       | ']' :: r2 => some (.arr [], r2)
       | _ => (parseItemsF fuel rest).map fun p => (.arr p.1, p.2))
    | '\x7b' :: rest =>
      (match skipWs rest with
       | '\x7d' :: r2 => some (.obj [], r2)
       | _ =>
         (parseMembersF fuel rest).map fun p =>
           (.obj (p.1.foldl (fun m kv => aupdate m kv.1 kv.2) []), p.2))
    | c :: rest =>
      if c = '-' ∨ c.isDigit then parseNumber (c :: rest) else none
    | [] => none

/-- Fueled parser for the comma-separated items of a non-empty array. -/
def parseItemsF : Nat → List Char → Option (List Json × List Char)
  | 0, _ => none
  | fuel + 1, cs =>
    match parseValueF fuel cs with
    | none => none
    | some (v, rest) =>
      match skipWs rest with
      | ',' :: r2 => (parseItemsF fuel r2).map fun p => (v :: p.1, p.2)
      | ']' :: r2 => some ([v], r2)
      | _ => none

/-- Fueled parser for the comma-separated members of a non-empty object. -/
def parseMembersF : Nat → List Char → Option (List (String × Json) × List Char)
  | 0, _ => none
  | fuel + 1, cs =>
    match skipWs cs with
    | '"' :: rest =>
      (match parseStringAux (rest.length + 1) rest "" with
       | none => none
       | some (key, r1) =>
         match skipWs r1 with
         | ':' :: r2 =>
           (match parseValueF fuel r2 with
            | none => none
            | some (v, r3) =>
              match skipWs r3 with
              | ',' :: r4 => (parseMembersF fuel r4).map fun p => ((key, v) :: p.1, p.2)
              | '\x7d' :: r4 => some ([(key, v)], r4)
              | _ => none)
         | _ => none)
    | _ => none

end

/-- Whole-string JSON parsing, the model of serde_json::from_str::<Value>:
one value, then only trailing whitespace. -/
def parseJson (s : String) : Option Json :=
  match parseValueF (2 * s.length + 8) s.data with
  | some (v, rest) => if skipWs rest = [] then some v else none
  | none => none

/-- Escape one character the way serde_json::to_string renders it inside
a string literal. -/
def escapeChar (c : Char) : String :=
  if c = '"' then "\\\""
  else if c = '\\' then "\\\\"
  else if c = Char.ofNat 8 then "\\b"
  else if c = Char.ofNat 12 then "\\f"
  else if c = '\n' then "\\n"
  else if c = '\r' then "\\r"
  else if c = '\t' then "\\t"
  else if c.toNat < 0x20 then
    "\\u00" ++
    String.singleton ("0123456789abcdef".data.getD (c.toNat / 16) '0') ++
    String.singleton ("0123456789abcdef".data.getD (c.toNat % 16) '0')
  else String.singleton c

/-- Compact rendering of a JSON string literal. -/
def renderString (s : String) : String :=
  "\"" ++ (s.data.map escapeChar).foldl (fun a b => a ++ b) "" ++ "\""

mutual

/-- Compact rendering of a JSON value, the model of Value::to_string. -/
def Json.render : Json → String
  | .null => "null"
  | .bool true => "true"
  | .bool false => "false"
  | .num n => toString n
  | .str s => renderString s
  | .arr xs => "[" ++ Json.renderItems xs ++ "]"
  | .obj kvs => "\x7b" ++ Json.renderMembers kvs ++ "\x7d"

/-- Rendering of array items, comma separated. -/
def Json.renderItems : List Json → String
  | [] => ""
  | [x] => Json.render x
  | x :: xs => Json.render x ++ "," ++ Json.renderItems xs

/-- Rendering of object members, comma separated. -/
def Json.renderMembers : List (String × Json) → String
  | [] => ""
  | [(k, v)] => renderString k ++ ":" ++ Json.render v
  | (k, v) :: kvs => renderString k ++ ":" ++ Json.render v ++ "," ++ Json.renderMembers kvs

end

/-- Canonical stream events (src-tauri/src/llm/types.rs StreamEvent); the
token-count fields are i32 values modelled as integers. -/
inductive StreamEvent where
  | textStart : StreamEvent
  | textDelta (text : String) : StreamEvent
  | toolCall (tool_call_id : String) (tool_name : String) (input : Json) : StreamEvent
  | usage (input_tokens : Int) (output_tokens : Int) (total_tokens : Option Int)
      (cached_input_tokens : Option Int) (cache_creation_input_tokens : Option Int) : StreamEvent
  | error (message : String) : StreamEvent
  | done (finish_reason : Option String) : StreamEvent
deriving Inhabited, Repr, DecidableEq

/-- Modelled from the spec: the per-stream tool-call accumulator
ToolCallAccum declared in the protocols module (its declaration is not in
the given sources; fields and use are fixed by spec section 3 and by
openai_protocol.rs). -/
structure ToolCallAccum where
  tool_call_id : String
  tool_name : String
  arguments : String
deriving Inhabited, Repr, DecidableEq

/-- Modelled from the spec: the per-stream mutable state
ProtocolStreamState declared in the protocols module (its declaration is
not in the given sources; fields and use are fixed by spec section 3 and
by openai_protocol.rs). -/
structure ProtocolStreamState where
  tool_call_index_map : List (Nat × String)
  tool_calls : List (String × ToolCallAccum)
  tool_call_order : List String
  emitted_tool_calls : List String
  pending_events : List StreamEvent
  text_started : Bool
  finish_reason : Option String
deriving Inhabited, Repr, DecidableEq

/-- The empty state a stream starts with (ProtocolStreamState::default). -/
def initialState : ProtocolStreamState :=
  ⟨[], [], [], [], [], false, none⟩

/-- Append one synthesized event to the pending FIFO queue
(state.pending_events.push). -/
def pushEvent (st : ProtocolStreamState) (e : StreamEvent) : ProtocolStreamState :=
  { st with pending_events := st.pending_events ++ [e] }

/-- Numeric stream index of a tool_calls entry (entry.get("index").and_then(as_u64)). -/
def entryIndex (entry : Json) : Option Nat :=
  (entry.getMember "index").bind Json.asNat?

/-- Id of a tool_calls entry, empty when absent or not a string
(entry.get("id").and_then(as_str).unwrap_or_default). -/
def entryId (entry : Json) : String :=
  ((entry.getMember "id").bind Json.asStr?).getD ""

/-- Function name carried by a tool_calls entry, empty when absent. -/
def entryName (entry : Json) : String :=
  (((entry.getMember "function").bind fun f => f.getMember "name").bind Json.asStr?).getD ""

/-- The function.arguments value carried by a tool_calls entry, if any. -/
def entryArgs (entry : Json) : Option Json :=
  (entry.getMember "function").bind fun f => f.getMember "arguments"

/-- Memoization step of parse_tool_delta (lines 244-249): the first time
an entry supplies both an index and a non-empty id, record the pairing. -/
def memoIndex (st : ProtocolStreamState) (entry : Json) : ProtocolStreamState :=
  match entryIndex entry with
  | some i =>
    if entryId entry ≠ "" then
      { st with tool_call_index_map := aInsertIfAbsent st.tool_call_index_map i (entryId entry) }
    else st
  | none => st

/-- Correlation-key resolution of parse_tool_delta (lines 251-265), read
on the state the memoization step already updated: own id, else the id
recorded for the index, else the key at the same ordinal of
tool_call_order, else the stringified index, else empty. -/
def resolvedKeyPost (st : ProtocolStreamState) (entry : Json) : String :=
  if entryId entry ≠ "" then entryId entry
  else
    match entryIndex entry with
    | some i =>
      (match alookup st.tool_call_index_map i with
       | some k => k
       | none =>
         match st.tool_call_order.get? i with
         | some k => k
         | none => toString i)
    | none => ""

/-- The key an entry resolves to when processed against a given state
(memoization, then resolution). -/
def resolvedKey (st : ProtocolStreamState) (entry : Json) : String :=
  resolvedKeyPost (memoIndex st entry) entry

/-- Start of the accumulator update (lines 278-289): the stored
accumulator, or a fresh one whose id defaults to the resolved key when
the entry has no id. -/
def accCreate (entry : Json) (key : String) (acc0 : Option ToolCallAccum) : ToolCallAccum :=
  match acc0 with
  | some a => a
  | none =>
    { tool_call_id := if entryId entry = "" then key else entryId entry
      tool_name := entryName entry
      arguments := "" }

/-- Last-write-wins id update (lines 291-293): a non-empty incoming id
overwrites, an empty one never does. -/
def accSetId (entry : Json) (acc : ToolCallAccum) : ToolCallAccum :=
  if entryId entry ≠ "" then { acc with tool_call_id := entryId entry } else acc

/-- Last-write-wins name update (lines 294-296): a non-empty incoming
name overwrites, an empty one never does. -/
def accSetName (entry : Json) (acc : ToolCallAccum) : ToolCallAccum :=
  if entryName entry ≠ "" then { acc with tool_name := entryName entry } else acc

/-- Arguments accumulation (lines 297-305): a non-empty string fragment
is appended; a non-string value replaces a still-empty buffer with its
rendering. -/
def accAddArgs (entry : Json) (acc : ToolCallAccum) : ToolCallAccum :=
  match entryArgs entry with
  | some (.str s) => if s ≠ "" then { acc with arguments := acc.arguments ++ s } else acc
  | some v => if acc.arguments = "" then { acc with arguments := v.render } else acc
  | none => acc

/-- Accumulator update for one entry (lines 278-305): create if absent,
then last-write-wins id and name, then argument accumulation. -/
def entryAccUpdate (entry : Json) (key : String) (acc0 : Option ToolCallAccum) :
    ToolCallAccum :=
  accAddArgs entry (accSetName entry (accSetId entry (accCreate entry key acc0)))

/-- Store the updated accumulator under its key and record the key in
first-seen order (lines 278-309); the membership test reads
tool_call_order, which the accumulator store does not touch. -/
def applyAccum (st : ProtocolStreamState) (key : String) (acc : ToolCallAccum) :
    ProtocolStreamState :=
  if st.tool_call_order.contains key then
    { st with tool_calls := aupdate st.tool_calls key acc }
  else
    { st with
      tool_calls := aupdate st.tool_calls key acc
      tool_call_order := st.tool_call_order ++ [key] }

/-- Processing of one entry of a delta.tool_calls array: the loop body of
OpenAiProtocol::parse_tool_delta (openai_protocol.rs lines 236-310). -/
def processEntry (st : ProtocolStreamState) (entry : Json) : ProtocolStreamState :=
  if resolvedKey st entry = "" then memoIndex st entry
  else
    applyAccum (memoIndex st entry) (resolvedKey st entry)
      (entryAccUpdate entry (resolvedKey st entry)
        (alookup (memoIndex st entry).tool_calls (resolvedKey st entry)))

/-- OpenAiProtocol::parse_tool_delta (openai_protocol.rs lines 230-311):
fold the entry processing over delta.tool_calls when it is an array. -/
def parse_tool_delta (delta : Json) (st : ProtocolStreamState) : ProtocolStreamState :=
  match (delta.getMember "tool_calls").bind Json.asArr? with
  | none => st
  | some entries => entries.foldl processEntry st

/-- The ToolCall event the flush synthesizes for an accumulator (lines
326-337): an empty or whitespace-only buffer gives the empty object,
otherwise the buffer parsed as JSON with a raw-string fallback on
failure. -/
def mkEmitEvent (acc : ToolCallAccum) : StreamEvent :=
  .toolCall acc.tool_call_id acc.tool_name
    (if rustTrim acc.arguments = "" then Json.obj []
     else
       match parseJson acc.arguments with
       | some v => v
       | none => Json.str acc.arguments)

/-- The flush step for one correlation key: the loop body of
OpenAiProtocol::emit_tool_calls (openai_protocol.rs lines 314-340). -/
def emitKey (force : Bool) (st : ProtocolStreamState) (key : String) : ProtocolStreamState :=
  if key ∈ st.emitted_tool_calls then st
  else
    match alookup st.tool_calls key with
    | none => st
    | some acc =>
      if acc.tool_name = "" then st
      else if ¬force ∧ rustTrim acc.arguments = "" then st
      else
        { st with
          pending_events := st.pending_events ++ [mkEmitEvent acc]
          emitted_tool_calls := st.emitted_tool_calls ++ [key] }

/-- OpenAiProtocol::emit_tool_calls (openai_protocol.rs lines 313-341):
walk tool_call_order and flush every accumulator that qualifies. -/
def emit_tool_calls (st : ProtocolStreamState) (force : Bool) : ProtocolStreamState :=
  st.tool_call_order.foldl (emitKey force) st

/-- The usage branch of parse_stream_event (lines 432-449): event fields
from prompt_tokens / completion_tokens / total_tokens. -/
def mkUsageEvent (u : Json) : StreamEvent :=
  .usage (toI32 (((u.getMember "prompt_tokens").bind Json.asI64?).getD 0))
    (toI32 (((u.getMember "completion_tokens").bind Json.asI64?).getD 0))
    (((u.getMember "total_tokens").bind Json.asI64?).map toI32)
    none none

/-- Queue a Usage event when the payload carries a usage member
(parse_stream_event lines 432-449). -/
def handleUsage (payload : Json) (st : ProtocolStreamState) : ProtocolStreamState :=
  match payload.getMember "usage" with
  | some u => pushEvent st (mkUsageEvent u)
  | none => st

/-- Capture of a string finish_reason from choices[0]
(parse_stream_event lines 453-455); the last write wins. -/
def captureFinish (choice : Json) (st : ProtocolStreamState) : ProtocolStreamState :=
  match (choice.getMember "finish_reason").bind Json.asStr? with
  | some fr => { st with finish_reason := some fr }
  | none => st

/-- TextStart emission (lines 457-460): pushed exactly once per stream,
the first time any delta is seen. -/
def startText (st : ProtocolStreamState) : ProtocolStreamState :=
  if st.text_started then st
  else pushEvent { st with text_started := true } .textStart

/-- TextDelta emission for string delta.content (lines 462-466). -/
def pushContent (delta : Json) (st : ProtocolStreamState) : ProtocolStreamState :=
  match (delta.getMember "content").bind Json.asStr? with
  | some content => pushEvent st (.textDelta content)
  | none => st

/-- Handling of choices[0] (parse_stream_event lines 451-470):
finish_reason capture, TextStart on the first delta, TextDelta for string
content, then tool-call delta accumulation. -/
def handleChoice (payload : Json) (st : ProtocolStreamState) : ProtocolStreamState :=
  match (payload.getMember "choices").bind Json.asArr? with
  | some (choice :: _) =>
    (match choice.getMember "delta" with
     | some delta => parse_tool_delta delta (pushContent delta (startText (captureFinish choice st)))
     | none => captureFinish choice st)
  | _ => st

/-- Everything parse_stream_event does to the state for a data frame that
parsed as JSON (lines 432-474): usage, choices[0], then the opportunistic
flush when the captured finish_reason equals tool_calls. -/
def handleDataPayload (payload : Json) (st : ProtocolStreamState) : ProtocolStreamState :=
  if (handleChoice payload (handleUsage payload st)).finish_reason = some "tool_calls" then
    emit_tool_calls (handleChoice payload (handleUsage payload st)) false
  else handleChoice payload (handleUsage payload st)

/-- OpenAiProtocol::parse_stream_event (openai_protocol.rs lines 414-482),
returning the Result and the updated state. -/
def parse_stream_event (data : String) (st : ProtocolStreamState) :
    Except String (Option StreamEvent) × ProtocolStreamState :=
  if rustTrim data = "[DONE]" then
    let st := emit_tool_calls st true
    match st.pending_events with
    | e :: rest => (.ok (some e), { st with pending_events := rest })
    | [] => (.ok (some (.done st.finish_reason)), st)
  else
    match parseJson data with
    | none => (.error "invalid JSON", st)
    | some payload =>
      let st := handleDataPayload payload st
      match st.pending_events with
      | e :: rest => (.ok (some e), { st with pending_events := rest })
      | [] => (.ok none, st)

/-- OpenAiProtocol::build_headers (openai_protocol.rs lines 484-501);
header maps are modelled as insert-ordered association lists with
insert-or-replace, matching HashMap contents. -/
def build_headers (api_key : Option String) (oauth_token : Option String)
    (extra_headers : Option (List (String × String))) : List (String × String) :=
  let headers := aupdate ([] : List (String × String)) "Content-Type" "application/json"
  let token := match oauth_token with | some t => some t | none => api_key
  let headers :=
    match token with
    | some t => aupdate headers "Authorization" ("Bearer " ++ t)
    | none => headers
  match extra_headers with
  | some extra => extra.foldl (fun m kv => aupdate m kv.1 kv.2) headers
  | none => headers

/-- Result of the stream collector, restricted to the fields with
data-level content (timing fields are wall-clock measurements and are out
of the embedding's scope); delta_count is the source's u32 field, a
natural kept below 2^32 by the wrapping increment of the loop. -/
structure CollectResult where
  text : String
  delta_count : Nat
deriving Repr, DecidableEq, Inhabited

/-- The event loop of StreamCollector::collect_text
(stream_collector.rs lines 28-52) as a fold over the finite item list the
stream yields: accumulate TextDelta text and count, stop at Done or end
of stream, fail on an Error event or an Err item. The counter is the
source's u32 delta_count (line 38, `delta_count += 1`), which wraps at
2^32 in a release build, so the increment is taken modulo 2^32. -/
def collectLoop : List (Except String StreamEvent) → String → Nat →
    Except String (String × Nat)
  | [], acc, n => .ok (acc, n)
  | .error e :: _, _, _ => .error e
  | .ok ev :: rest, acc, n =>
    match ev with
    | .textDelta t => collectLoop rest (acc ++ t) ((n + 1) % 2 ^ 32)
    | .done _ => .ok (acc, n)
    | .error m => .error ("Stream error: " ++ m)
    | _ => collectLoop rest acc n

/-- StreamCollector::collect_text (stream_collector.rs lines 11-62): run
the loop from an empty accumulator and trim the collected text. -/
def collect_text (items : List (Except String StreamEvent)) : Except String CollectResult :=
  match collectLoop items "" 0 with
  | .error e => .error e
  | .ok (acc, n) => .ok ⟨rustTrim acc, n⟩

/-- An item the collector keeps consuming past (anything but a Done event). -/
def notDoneItem : Except String StreamEvent → Bool
  | .ok (.done _) => false
  | _ => true

/-- The prefix of the stream the collector actually consumes. -/
def consumedItems (items : List (Except String StreamEvent)) :
    List (Except String StreamEvent) :=
  items.takeWhile notDoneItem

/-- Texts of the TextDelta events among a list of stream items. -/
def deltaTexts (items : List (Except String StreamEvent)) : List String :=
  items.filterMap fun i =>
    match i with
    | .ok (.textDelta t) => some t
    | _ => none

/-- Number of TextDelta events among a list of stream items. -/
def deltaCount (items : List (Except String StreamEvent)) : Nat :=
  (deltaTexts items).length

/-- The event returned by one parser call, as a list (none gives []). -/
def retList (r : Except String (Option StreamEvent)) : List StreamEvent :=
  match r with
  | .ok (some e) => [e]
  | _ => []

/-- Drive one raw frame through the parser, accumulating returned events;
exactly the frame-by-frame loop a stream consumer runs. -/
def stepFrame (acc : ProtocolStreamState × List StreamEvent) (data : String) :
    ProtocolStreamState × List StreamEvent :=
  ((parse_stream_event data acc.1).2, acc.2 ++ retList (parse_stream_event data acc.1).1)

/-- Feed a whole list of raw frames through one state. -/
def runFrames (datas : List String) (st : ProtocolStreamState) :
    ProtocolStreamState × List StreamEvent :=
  datas.foldl stepFrame (st, [])

/-- All events a frame sequence surfaces from the initially empty state:
the events returned by each call, then the still-queued pending events in
order (the caller drains the FIFO). -/
def producedEvents (datas : List String) : List StreamEvent :=
  let r := runFrames datas initialState
  r.2 ++ r.1.pending_events

/-- Test for a ToolCall event. -/
def isToolCallEv : StreamEvent → Bool
  | .toolCall _ _ _ => true
  | _ => false

/-- Test for a TextStart event. -/
def isStartEv : StreamEvent → Bool
  | .textStart => true
  | _ => false

/-- Test for a TextDelta event. -/
def isDeltaEv : StreamEvent → Bool
  | .textDelta _ => true
  | _ => false

/-- Test for a Usage event. -/
def isUsageEv : StreamEvent → Bool
  | .usage _ _ _ _ _ => true
  | _ => false

/-- The tool_call_id fields of the ToolCall events of a list, in order. -/
def toolIds (evs : List StreamEvent) : List String :=
  evs.filterMap fun e =>
    match e with
    | .toolCall id _ _ => some id
    | _ => none

/-- No TextDelta occurs before the first TextStart of the list. -/
def noDeltaBeforeStart (evs : List StreamEvent) : Prop :=
  ((evs.takeWhile fun e => !isStartEv e).all fun e => !isDeltaEv e) = true

/-- Events queued by handleDataPayload beyond the queue it started from. -/
def frameQueuedEvents (payload : Json) (st : ProtocolStreamState) : List StreamEvent :=
  (handleDataPayload payload st).pending_events.drop st.pending_events.length

/-- Qualification test of the flush loop: a key is emitted now iff it is
not yet emitted, has an accumulator with a non-empty name, and (unless
forced) a non-whitespace arguments buffer. -/
def passKey (st : ProtocolStreamState) (force : Bool) (k : String) : Bool :=
  !(st.emitted_tool_calls.contains k) &&
    (match alookup st.tool_calls k with
     | none => false
     | some acc => acc.tool_name != "" && (force || rustTrim acc.arguments != ""))

/-- Lookup into an optional extra-header list. -/
def extraLook (e : Option (List (String × String))) (k : String) : Option String :=
  match e with
  | some l => alookup l k
  | none => none

/-- Concatenation of a list of strings in order (the repeated push_str of
the collector loop). -/
def strConcat (l : List String) : String :=
  l.foldl (fun a b => a ++ b) ""

/-- Concrete stream items for the C10 witness: two whitespace-only
deltas, interleaved non-text events, a Done, then an ignored delta. -/
def c10Items : List (Except String StreamEvent) :=
  [.ok (.textDelta "  "), .ok .textStart, .ok (.textDelta " \t"),
   .ok (.usage 1 2 none none none), .ok (.done none), .ok (.textDelta "zz")]

/-- Events one flush step appends for a key: the synthesized ToolCall
when the key qualifies, nothing otherwise. -/
def emitEventsFor (st : ProtocolStreamState) (f : Bool) (k : String) : List StreamEvent :=
  if passKey st f k then
    match alookup st.tool_calls k with
    | some acc => [mkEmitEvent acc]
    | none => []
  else []

/-- Concrete frame for the C5 witness: a usage object with prompt and
total counts but no completion count. -/
def c5Data : String := "\x7b\"usage\":\x7b\"prompt_tokens\":7,\"total_tokens\":9\x7d\x7d"

/-- Parsed payload of the C5 witness frame. -/
def c5Payload : Json := .obj [("usage", .obj [("prompt_tokens", .num 7), ("total_tokens", .num 9)])]

/-- State holding one finished accumulator whose arguments buffer is
empty: the input the forced flush synthesizes for it decides claim C4. -/
def c4State : ProtocolStreamState :=
  ⟨[], [("c1", ⟨"c1", "f", ""⟩)], ["c1"], [], [], false, none⟩

/-- Concrete state and entry for the C7 witness: the stored name
survives a nameless later delta while the id is rewritten by the same
value it already has. -/
def c7State : ProtocolStreamState :=
  ⟨[], [("idA", ⟨"idA", "nameA", "x"⟩)], ["idA"], [], [], false, none⟩

/-- Concrete nameless delta entry targeting idA. -/
def c7Entry : Json :=
  .obj [("id", .str "idA"), ("function", .obj [("arguments", .str "yz")])]

/-- The invariant carried through a stream for claim C2: every stored
accumulator is keyed by its own tool_call_id, every ToolCall id already
surfaced (returned or still queued) is in the emitted set, and those ids
are pairwise distinct. -/
def c2Inv (st : ProtocolStreamState) (evs : List StreamEvent) : Prop :=
  (∀ k acc, alookup st.tool_calls k = some acc → acc.tool_call_id = k)
  ∧ (∀ id, id ∈ toolIds (evs ++ st.pending_events) → id ∈ st.emitted_tool_calls)
  ∧ (toolIds (evs ++ st.pending_events)).Nodup

/-- The invariant carried through a stream for claim C6: the number of
TextStart events surfaced so far matches the text_started flag, and no
TextDelta precedes the first TextStart. -/
def c6Inv (st : ProtocolStreamState) (evs : List StreamEvent) : Prop :=
  (evs ++ st.pending_events).countP (fun e => isStartEv e) =
    (if st.text_started then 1 else 0)
  ∧ noDeltaBeforeStart (evs ++ st.pending_events)

/-- Concrete text frame for the C6 witness. -/
def c6Data : String := "\x7b\"choices\":[\x7b\"delta\":\x7b\"content\":\"hi\"\x7d\x7d]\x7d"

theorem alookup_aupdate_self {α : Type} (m : List (String × α)) (k : String) (v : α) :
    alookup (aupdate m k v) k = some v := by
  induction m with
  | nil => simp [aupdate, alookup]
  | cons p rest ih =>
    by_cases h : p.1 = k
    · simp [aupdate, alookup, h]
    · simp [aupdate, alookup, h, ih]

theorem alookup_aupdate_ne {α : Type} (m : List (String × α)) (k1 k : String) (v : α)
    (h : k1 ≠ k) : alookup (aupdate m k1 v) k = alookup m k := by
  induction m with
  | nil => simp [aupdate, alookup, h]
  | cons p rest ih =>
    by_cases hp : p.1 = k1
    · simp [aupdate, alookup, hp, h]
    · simp only [aupdate, hp, if_false]
      by_cases hq : p.1 = k
      · simp [alookup, hq]
      · simp [alookup, hq, ih]

theorem alookup_none_forall {α : Type} (m : List (String × α)) (k : String)
    (h : alookup m k = none) : ∀ p ∈ m, p.1 ≠ k := by
  induction m with
  | nil => intro p hp; cases hp
  | cons q rest ih =>
    intro p hp
    by_cases hq : q.1 = k
    · rw [alookup, if_pos hq] at h; cases h
    · rw [alookup, if_neg hq] at h
      rcases List.mem_cons.mp hp with hp | hp
      · rw [hp]; exact hq
      · exact ih h p hp

theorem emitKey_finish (f : Bool) (st : ProtocolStreamState) (k : String) :
    (emitKey f st k).finish_reason = st.finish_reason := by
  unfold emitKey
  repeat' split <;> try rfl

theorem emit_fold_finish (l : List String) (f : Bool) :
    ∀ st : ProtocolStreamState, (l.foldl (emitKey f) st).finish_reason = st.finish_reason := by
  induction l with
  | nil => intro st; rfl
  | cons k t ih => intro st; rw [List.foldl_cons, ih, emitKey_finish]

theorem emit_finish (st : ProtocolStreamState) (f : Bool) :
    (emit_tool_calls st f).finish_reason = st.finish_reason :=
  emit_fold_finish st.tool_call_order f st

/-- C3: whenever the raw data trims to the [DONE] sentinel,
parse_stream_event first force-flushes the not-yet-emitted tool calls,
then returns the oldest queued pending event when the queue is non-empty
and otherwise a Done event carrying the last captured finish_reason; the
call always returns an event (never none) and never an error. -/
theorem c3_done_sentinel (data : String) (st : ProtocolStreamState)
    (h : rustTrim data = "[DONE]") :
    parse_stream_event data st =
      (Except.ok (some (((emit_tool_calls st true).pending_events.head?).getD
          (StreamEvent.done st.finish_reason))),
        { emit_tool_calls st true with
          pending_events := (emit_tool_calls st true).pending_events.tail }) := by
  have hfin : (emit_tool_calls st true).finish_reason = st.finish_reason := emit_finish st true
  unfold parse_stream_event
  rw [h]
  rcases hE : emit_tool_calls st true with ⟨a, b, c, d, p, ts, fr⟩
  rw [hE] at hfin
  cases p with
  | nil => simp_all
  | cons e rest => simp_all

/-- Witness for C3 at a concrete padded [DONE] frame and the empty state. -/
theorem c3_done_sentinel_witness :
    parse_stream_event " [DONE] " initialState =
      (Except.ok (some (((emit_tool_calls initialState true).pending_events.head?).getD
          (StreamEvent.done initialState.finish_reason))),
        { emit_tool_calls initialState true with
          pending_events := (emit_tool_calls initialState true).pending_events.tail }) :=
  c3_done_sentinel " [DONE] " initialState (by decide)

/-- C8: a frame that neither trims to [DONE] nor parses as JSON makes
parse_stream_event return an error result and leaves the state exactly
unchanged. -/
theorem c8_malformed_frame (data : String) (st : ProtocolStreamState)
    (h1 : rustTrim data ≠ "[DONE]") (h2 : parseJson data = none) :
    parse_stream_event data st = (.error "invalid JSON", st) := by
  unfold parse_stream_event
  rw [if_neg h1, h2]

/-- Witness for C8 at a concrete malformed frame. -/
theorem c8_malformed_frame_witness :
    parse_stream_event "not json" initialState = (.error "invalid JSON", initialState) :=
  c8_malformed_frame "not json" initialState (by decide) (by decide)

theorem foldl_aupdate_absent (l : List (String × String)) (k : String) :
    ∀ m0 : List (String × String), (∀ p ∈ l, p.1 ≠ k) →
      alookup (l.foldl (fun m kv => aupdate m kv.1 kv.2) m0) k = alookup m0 k := by
  induction l with
  | nil => intro m0 _; rfl
  | cons p t ih =>
    intro m0 hne
    rw [List.foldl_cons]
    rw [ih (aupdate m0 p.1 p.2) (fun q hq => hne q (List.mem_cons_of_mem p hq))]
    exact alookup_aupdate_ne m0 p.1 k p.2 (hne p (List.mem_cons_self p t))

theorem foldl_aupdate_found (l : List (String × String)) (k : String) (v : String) :
    ∀ m0 : List (String × String), (l.map Prod.fst).Nodup → (k, v) ∈ l →
      alookup (l.foldl (fun m kv => aupdate m kv.1 kv.2) m0) k = some v := by
  induction l with
  | nil => intro m0 _ hmem; cases hmem
  | cons p t ih =>
    intro m0 hnd hmem
    rw [List.map_cons, List.nodup_cons] at hnd
    rcases List.mem_cons.mp hmem with hp | hp
    · subst hp
      rw [List.foldl_cons]
      rw [foldl_aupdate_absent t k]
      · exact alookup_aupdate_self m0 k v
      · intro q hq hqk
        have hmm : q.1 ∈ List.map Prod.fst t := List.mem_map_of_mem Prod.fst hq
        rw [hqk] at hmm
        exact hnd.1 hmm
    · rw [List.foldl_cons]
      exact ih (aupdate m0 p.1 p.2) hnd.2 hp

/-- C9: build_headers always computes Content-Type application/json; it
computes Authorization Bearer from the OAuth token when present, else
from the API key, and omits Authorization when neither is supplied;
extra_headers entries are applied last and each of them is exactly what
the final map reports for its key, overriding any computed header.  The
computed-header conclusions are stated for keys the extra headers do not
override, which is what the applied-last clause of the claim forces. -/
theorem c9_build_headers (api oauth : Option String)
    (extra : Option (List (String × String))) :
    (extraLook extra "Content-Type" = none →
      alookup (build_headers api oauth extra) "Content-Type" = some "application/json")
    ∧ (∀ t, oauth = some t → extraLook extra "Authorization" = none →
        alookup (build_headers api oauth extra) "Authorization" = some ("Bearer " ++ t))
    ∧ (∀ a, oauth = none → api = some a → extraLook extra "Authorization" = none →
        alookup (build_headers api oauth extra) "Authorization" = some ("Bearer " ++ a))
    ∧ (oauth = none → api = none → extraLook extra "Authorization" = none →
        alookup (build_headers api oauth extra) "Authorization" = none)
    ∧ (∀ l k v, extra = some l → (l.map Prod.fst).Nodup → (k, v) ∈ l →
        alookup (build_headers api oauth extra) k = some v) := by
  refine ⟨?_, ?_, ?_, ?_, ?_⟩
  · intro hex
    unfold build_headers
    cases extra with
    | none =>
      cases oauth with
      | none =>
        cases api with
        | none => rfl
        | some a => rfl
      | some t => rfl
    | some l =>
      simp only [extraLook] at hex
      rw [foldl_aupdate_absent l _ _ (alookup_none_forall l _ hex)]
      cases oauth with
      | none =>
        cases api with
        | none => rfl
        | some a => rfl
      | some t => rfl
  · intro t ht hex
    subst ht
    unfold build_headers
    cases extra with
    | none => rfl
    | some l =>
      simp only [extraLook] at hex
      rw [foldl_aupdate_absent l _ _ (alookup_none_forall l _ hex)]
      rfl
  · intro a hoa hapi hex
    subst hoa; subst hapi
    unfold build_headers
    cases extra with
    | none => rfl
    | some l =>
      simp only [extraLook] at hex
      rw [foldl_aupdate_absent l _ _ (alookup_none_forall l _ hex)]
      rfl
  · intro hoa hapi hex
    subst hoa; subst hapi
    unfold build_headers
    cases extra with
    | none => rfl
    | some l =>
      simp only [extraLook] at hex
      rw [foldl_aupdate_absent l _ _ (alookup_none_forall l _ hex)]
      rfl
  · intro l k v hl hnd hmem
    subst hl
    unfold build_headers
    exact foldl_aupdate_found l k v _ hnd hmem

/-- Witness for C9 at the claim's concrete example: oauth wins over the
api key and the extra header is reported back. -/
theorem c9_build_headers_witness :
    alookup (build_headers (some "api") (some "oauth") (some [("X-Test", "1")]))
        "Authorization" = some ("Bearer " ++ "oauth")
    ∧ alookup (build_headers (some "api") (some "oauth") (some [("X-Test", "1")]))
        "X-Test" = some "1" :=
  ⟨(c9_build_headers (some "api") (some "oauth") (some [("X-Test", "1")])).2.1 "oauth"
      (by decide) (by decide),
   (c9_build_headers (some "api") (some "oauth") (some [("X-Test", "1")])).2.2.2.2
      [("X-Test", "1")] "X-Test" "1" (by decide) (by decide) (by decide)⟩

theorem strAppend_data (a b : String) : (a ++ b).data = a.data ++ b.data := by
  cases a; cases b; rfl

theorem strAppend_empty (s : String) : s ++ "" = s := by
  cases s with
  | mk data =>
    show String.mk (data ++ []) = String.mk data
    rw [List.append_nil]

theorem strEmpty_append (s : String) : "" ++ s = s := by
  cases s with
  | mk data =>
    show String.mk ([] ++ data) = String.mk data
    rw [List.nil_append]

theorem strAppend_assoc (a b c : String) : a ++ b ++ c = a ++ (b ++ c) := by
  cases a; cases b; cases c
  show String.mk _ = String.mk _
  rw [List.append_assoc]

theorem strConcat_shift (l : List String) :
    ∀ init : String, l.foldl (fun a b => a ++ b) init = init ++ strConcat l := by
  induction l with
  | nil => intro init; exact (strAppend_empty init).symm
  | cons a t ih =>
    intro init
    rw [List.foldl_cons, ih (init ++ a)]
    have h2 : strConcat (a :: t) = a ++ strConcat t := by
      show (a :: t).foldl (fun x y => x ++ y) "" = a ++ strConcat t
      rw [List.foldl_cons, ih ("" ++ a), strEmpty_append]
    rw [h2, strAppend_assoc]

theorem strConcat_cons (a : String) (t : List String) :
    strConcat (a :: t) = a ++ strConcat t := by
  show (a :: t).foldl (fun x y => x ++ y) "" = a ++ strConcat t
  rw [List.foldl_cons, strConcat_shift, strEmpty_append]

theorem strConcat_mem_data (l : List String) (c : Char) (h : c ∈ (strConcat l).data) :
    ∃ s ∈ l, c ∈ s.data := by
  induction l with
  | nil => cases h
  | cons a t ih =>
    rw [strConcat_cons, strAppend_data] at h
    rcases List.mem_append.mp h with h | h
    · exact ⟨a, List.mem_cons_self a t, h⟩
    · rcases ih h with ⟨s, hs, hc⟩
      exact ⟨s, List.mem_cons_of_mem a hs, hc⟩

theorem rustTrim_of_all_ws (s : String) (h : ∀ c ∈ s.data, isRustWs c = true) :
    rustTrim s = "" := by
  unfold rustTrim
  have h1 : s.data.dropWhile (fun c => isRustWs c) = [] := by
    rw [List.dropWhile_eq_nil_iff]
    exact h
  rw [h1]
  rfl

theorem collectLoop_char (items : List (Except String StreamEvent)) :
    ∀ (acc : String) (n : Nat) (out : String × Nat), n < 2 ^ 32 →
      collectLoop items acc n = .ok out →
      out.1 = acc ++ strConcat (deltaTexts (consumedItems items)) ∧
      out.2 = (n + deltaCount (consumedItems items)) % 2 ^ 32 := by
  induction items with
  | nil =>
    intro acc n out hn h
    injection h with h
    subst h
    constructor
    · exact (strAppend_empty acc).symm
    · exact (Nat.mod_eq_of_lt hn).symm
  | cons i t ih =>
    intro acc n out hn h
    cases i with
    | error e => cases h
    | ok ev =>
      cases ev with
      | textDelta s =>
        rcases ih (acc ++ s) ((n + 1) % 2 ^ 32) out
          (Nat.mod_lt _ (Nat.pos_pow_of_pos 32 (by decide))) h with ⟨h1, h2⟩
        constructor
        · rw [h1]
          have hc : consumedItems (Except.ok (StreamEvent.textDelta s) :: t) =
              Except.ok (StreamEvent.textDelta s) :: consumedItems t := rfl
          rw [hc]
          have hd : deltaTexts (Except.ok (StreamEvent.textDelta s) :: consumedItems t) =
              s :: deltaTexts (consumedItems t) := rfl
          rw [hd, strConcat_cons, strAppend_assoc]
        · rw [h2]
          have hc : deltaCount (consumedItems (Except.ok (StreamEvent.textDelta s) :: t)) =
              deltaCount (consumedItems t) + 1 := by
            show (deltaTexts (Except.ok (StreamEvent.textDelta s) :: consumedItems t)).length =
              (deltaTexts (consumedItems t)).length + 1
            rfl
          rw [hc, Nat.mod_add_mod]
          have he : n + 1 + deltaCount (consumedItems t) =
              n + (deltaCount (consumedItems t) + 1) := by omega
          rw [he]
      | done fr =>
        injection h with h
        subst h
        constructor
        · exact (strAppend_empty acc).symm
        · exact (Nat.mod_eq_of_lt hn).symm
      | error m => cases h
      | textStart =>
        rcases ih acc n out hn h with ⟨h1, h2⟩
        exact ⟨h1, h2⟩
      | toolCall a b c =>
        rcases ih acc n out hn h with ⟨h1, h2⟩
        exact ⟨h1, h2⟩
      | usage a b c d e =>
        rcases ih acc n out hn h with ⟨h1, h2⟩
        exact ⟨h1, h2⟩

/-- C10: when collect_text succeeds, the reported text is the in-order
concatenation of the TextDelta texts the loop consumed (everything before
the first Done), trimmed of leading and trailing whitespace - not the raw
concatenation; delta_count counts every consumed TextDelta modulo 2^32
(the wrap of the source's u32 counter); non-text events contribute
nothing (only TextDelta texts appear in the concatenation); and a stream
whose deltas are all whitespace yields the empty text while the count
still counts them. -/
theorem c10_collect_text (items : List (Except String StreamEvent)) (out : CollectResult)
    (h : collect_text items = .ok out) :
    out.text = rustTrim (strConcat (deltaTexts (consumedItems items)))
    ∧ out.delta_count = deltaCount (consumedItems items) % 2 ^ 32
    ∧ ((∀ t ∈ deltaTexts (consumedItems items), ∀ c ∈ t.data, isRustWs c = true) →
        out.text = "") := by
  unfold collect_text at h
  cases hc : collectLoop items "" 0 with
  | error e => rw [hc] at h; cases h
  | ok p =>
    rw [hc] at h
    injection h with h
    subst h
    rcases collectLoop_char items "" 0 p (by decide) hc with ⟨h1, h2⟩
    rw [strEmpty_append] at h1
    refine ⟨by rw [h1], by rw [h2, Nat.zero_add], ?_⟩
    intro hws
    show rustTrim p.1 = ""
    rw [h1]
    apply rustTrim_of_all_ws
    intro c hcmem
    rcases strConcat_mem_data _ c hcmem with ⟨s, hs, hcs⟩
    exact hws s hs c hcs

/-- Witness for C10 at a concrete whitespace-only stream. -/
theorem c10_collect_text_witness :
    (⟨"", 2⟩ : CollectResult).text =
      rustTrim (strConcat (deltaTexts (consumedItems c10Items)))
    ∧ (⟨"", 2⟩ : CollectResult).delta_count = deltaCount (consumedItems c10Items) % 2 ^ 32
    ∧ ((∀ t ∈ deltaTexts (consumedItems c10Items), ∀ c ∈ t.data, isRustWs c = true) →
        (⟨"", 2⟩ : CollectResult).text = "") :=
  c10_collect_text c10Items ⟨"", 2⟩ (by decide)

theorem memoIndex_fields (st : ProtocolStreamState) (e : Json) :
    (memoIndex st e).tool_calls = st.tool_calls
    ∧ (memoIndex st e).tool_call_order = st.tool_call_order
    ∧ (memoIndex st e).emitted_tool_calls = st.emitted_tool_calls
    ∧ (memoIndex st e).pending_events = st.pending_events
    ∧ (memoIndex st e).text_started = st.text_started
    ∧ (memoIndex st e).finish_reason = st.finish_reason := by
  unfold memoIndex
  split
  · split
    · exact ⟨rfl, rfl, rfl, rfl, rfl, rfl⟩
    · exact ⟨rfl, rfl, rfl, rfl, rfl, rfl⟩
  · exact ⟨rfl, rfl, rfl, rfl, rfl, rfl⟩

theorem applyAccum_fields (st : ProtocolStreamState) (key : String) (acc : ToolCallAccum) :
    (applyAccum st key acc).pending_events = st.pending_events
    ∧ (applyAccum st key acc).emitted_tool_calls = st.emitted_tool_calls
    ∧ (applyAccum st key acc).text_started = st.text_started
    ∧ (applyAccum st key acc).finish_reason = st.finish_reason
    ∧ (applyAccum st key acc).tool_call_index_map = st.tool_call_index_map := by
  unfold applyAccum
  split
  · exact ⟨rfl, rfl, rfl, rfl, rfl⟩
  · exact ⟨rfl, rfl, rfl, rfl, rfl⟩

theorem processEntry_frame_fields (st : ProtocolStreamState) (e : Json) :
    (processEntry st e).pending_events = st.pending_events
    ∧ (processEntry st e).emitted_tool_calls = st.emitted_tool_calls
    ∧ (processEntry st e).text_started = st.text_started
    ∧ (processEntry st e).finish_reason = st.finish_reason := by
  rcases memoIndex_fields st e with ⟨_, _, m3, m4, m5, m6⟩
  unfold processEntry
  split
  · exact ⟨m4, m3, m5, m6⟩
  · rcases applyAccum_fields (memoIndex st e) (resolvedKeyPost (memoIndex st e) e)
      (entryAccUpdate e (resolvedKeyPost (memoIndex st e) e)
        (alookup (memoIndex st e).tool_calls (resolvedKeyPost (memoIndex st e) e))) with
      ⟨a1, a2, a3, a4, _⟩
    exact ⟨a1.trans m4, a2.trans m3, a3.trans m5, a4.trans m6⟩

theorem parse_tool_delta_fold_fields (entries : List Json) :
    ∀ st : ProtocolStreamState,
      (entries.foldl processEntry st).pending_events = st.pending_events
      ∧ (entries.foldl processEntry st).emitted_tool_calls = st.emitted_tool_calls
      ∧ (entries.foldl processEntry st).text_started = st.text_started
      ∧ (entries.foldl processEntry st).finish_reason = st.finish_reason := by
  induction entries with
  | nil => intro st; exact ⟨rfl, rfl, rfl, rfl⟩
  | cons e t ih =>
    intro st
    rcases processEntry_frame_fields st e with ⟨h1, h2, h3, h4⟩
    rcases ih (processEntry st e) with ⟨g1, g2, g3, g4⟩
    rw [List.foldl_cons]
    exact ⟨g1.trans h1, g2.trans h2, g3.trans h3, g4.trans h4⟩

theorem parse_tool_delta_frame_fields (delta : Json) (st : ProtocolStreamState) :
    (parse_tool_delta delta st).pending_events = st.pending_events
    ∧ (parse_tool_delta delta st).emitted_tool_calls = st.emitted_tool_calls
    ∧ (parse_tool_delta delta st).text_started = st.text_started
    ∧ (parse_tool_delta delta st).finish_reason = st.finish_reason := by
  unfold parse_tool_delta
  split
  · exact ⟨rfl, rfl, rfl, rfl⟩
  · exact parse_tool_delta_fold_fields _ st

theorem contains_eq_false_of_not_mem {l : List String} {k : String} (h : k ∉ l) :
    l.contains k = false := by
  cases hc : l.contains k with
  | false => rfl
  | true => exact absurd (List.elem_iff.mp hc) h

theorem emitKey_pending (f : Bool) (st : ProtocolStreamState) (k : String) :
    (emitKey f st k).pending_events = st.pending_events ++ emitEventsFor st f k := by
  by_cases h1 : k ∈ st.emitted_tool_calls
  · have hc : st.emitted_tool_calls.contains k = true := List.elem_iff.mpr h1
    simp [emitKey, h1, emitEventsFor, passKey, hc]
  · have hc : st.emitted_tool_calls.contains k = false := contains_eq_false_of_not_mem h1
    cases h2 : alookup st.tool_calls k with
    | none => simp [emitKey, h1, h2, emitEventsFor, passKey, hc]
    | some acc =>
      by_cases h3 : acc.tool_name = ""
      · simp [emitKey, h1, h2, h3, emitEventsFor, passKey, hc]
      · by_cases h4 : rustTrim acc.arguments = ""
        · cases f with
          | false => simp [emitKey, h1, h2, h3, h4, emitEventsFor, passKey, hc]
          | true =>
            simp [emitKey, h1, h2, h3, h4, emitEventsFor, passKey, hc, pushEvent, mkEmitEvent]
        · simp [emitKey, h1, h2, h3, h4, emitEventsFor, passKey, hc, pushEvent, mkEmitEvent]

theorem emitEventsFor_toolcall (st : ProtocolStreamState) (f : Bool) (k : String)
    (e : StreamEvent) (h : e ∈ emitEventsFor st f k) : isToolCallEv e = true := by
  unfold emitEventsFor at h
  split at h
  · cases hl : alookup st.tool_calls k with
    | none => rw [hl] at h; cases h
    | some acc =>
      rw [hl] at h
      have he : e = mkEmitEvent acc := List.mem_singleton.mp h
      rw [he, mkEmitEvent]
      rfl
  · cases h

theorem emit_fold_pending_mono (l : List String) (f : Bool) :
    ∀ st : ProtocolStreamState, ∃ s : List StreamEvent,
      (l.foldl (emitKey f) st).pending_events = st.pending_events ++ s
      ∧ ∀ e ∈ s, isToolCallEv e = true := by
  induction l with
  | nil => intro st; exact ⟨[], by simp, fun e he => absurd he (List.not_mem_nil e)⟩
  | cons k t ih =>
    intro st
    rcases ih (emitKey f st k) with ⟨s, hs, hall⟩
    refine ⟨emitEventsFor st f k ++ s, ?_, ?_⟩
    · rw [List.foldl_cons, hs, emitKey_pending, List.append_assoc]
    · intro e he
      rcases List.mem_append.mp he with he | he
      · exact emitEventsFor_toolcall st f k e he
      · exact hall e he

theorem emit_pending_mono (st : ProtocolStreamState) (f : Bool) :
    ∃ s : List StreamEvent,
      (emit_tool_calls st f).pending_events = st.pending_events ++ s
      ∧ ∀ e ∈ s, isToolCallEv e = true :=
  emit_fold_pending_mono st.tool_call_order f st

theorem handleUsage_pending (p : Json) (st : ProtocolStreamState) :
    (handleUsage p st).pending_events = st.pending_events ++
      (match p.getMember "usage" with
       | some u => [mkUsageEvent u]
       | none => []) := by
  unfold handleUsage
  cases hu : p.getMember "usage" with
  | some u => simp [pushEvent]
  | none => simp

theorem handleUsage_fields (p : Json) (st : ProtocolStreamState) :
    (handleUsage p st).tool_calls = st.tool_calls
    ∧ (handleUsage p st).tool_call_order = st.tool_call_order
    ∧ (handleUsage p st).emitted_tool_calls = st.emitted_tool_calls
    ∧ (handleUsage p st).text_started = st.text_started
    ∧ (handleUsage p st).finish_reason = st.finish_reason
    ∧ (handleUsage p st).tool_call_index_map = st.tool_call_index_map := by
  unfold handleUsage
  split <;> exact ⟨rfl, rfl, rfl, rfl, rfl, rfl⟩

theorem captureFinish_fields (c : Json) (st : ProtocolStreamState) :
    (captureFinish c st).tool_calls = st.tool_calls
    ∧ (captureFinish c st).tool_call_order = st.tool_call_order
    ∧ (captureFinish c st).emitted_tool_calls = st.emitted_tool_calls
    ∧ (captureFinish c st).text_started = st.text_started
    ∧ (captureFinish c st).pending_events = st.pending_events
    ∧ (captureFinish c st).tool_call_index_map = st.tool_call_index_map := by
  unfold captureFinish
  split <;> exact ⟨rfl, rfl, rfl, rfl, rfl, rfl⟩

theorem startText_pending (st : ProtocolStreamState) :
    (startText st).pending_events = st.pending_events ++
      (if st.text_started then [] else [.textStart]) := by
  unfold startText
  split
  · simp
  · simp [pushEvent]

theorem startText_fields (st : ProtocolStreamState) :
    (startText st).tool_calls = st.tool_calls
    ∧ (startText st).tool_call_order = st.tool_call_order
    ∧ (startText st).emitted_tool_calls = st.emitted_tool_calls
    ∧ (startText st).finish_reason = st.finish_reason
    ∧ (startText st).tool_call_index_map = st.tool_call_index_map := by
  unfold startText
  split <;> exact ⟨rfl, rfl, rfl, rfl, rfl⟩

theorem pushContent_pending (d : Json) (st : ProtocolStreamState) :
    (pushContent d st).pending_events = st.pending_events ++
      (match (d.getMember "content").bind Json.asStr? with
       | some content => [.textDelta content]
       | none => []) := by
  unfold pushContent
  split
  · simp [pushEvent]
  · simp

theorem pushContent_fields (d : Json) (st : ProtocolStreamState) :
    (pushContent d st).tool_calls = st.tool_calls
    ∧ (pushContent d st).tool_call_order = st.tool_call_order
    ∧ (pushContent d st).emitted_tool_calls = st.emitted_tool_calls
    ∧ (pushContent d st).text_started = st.text_started
    ∧ (pushContent d st).finish_reason = st.finish_reason
    ∧ (pushContent d st).tool_call_index_map = st.tool_call_index_map := by
  unfold pushContent
  split <;> exact ⟨rfl, rfl, rfl, rfl, rfl, rfl⟩

theorem handleChoice_pending (p : Json) (st : ProtocolStreamState) :
    ∃ s : List StreamEvent,
      (handleChoice p st).pending_events = st.pending_events ++ s
      ∧ ∀ e ∈ s, isUsageEv e = false := by
  unfold handleChoice
  cases hch : (p.getMember "choices").bind Json.asArr? with
  | none => exact ⟨[], by simp, fun e he => absurd he (List.not_mem_nil e)⟩
  | some arr =>
    cases arr with
    | nil => exact ⟨[], by simp, fun e he => absurd he (List.not_mem_nil e)⟩
    | cons choice rest =>
      cases hd : choice.getMember "delta" with
      | none =>
        refine ⟨[], ?_, fun e he => absurd he (List.not_mem_nil e)⟩
        simp only [hd]
        rw [(captureFinish_fields choice st).2.2.2.2.1]
        simp
      | some delta =>
        rcases parse_tool_delta_frame_fields delta
            (pushContent delta (startText (captureFinish choice st))) with ⟨t1, _, _, _⟩
        refine ⟨(if (captureFinish choice st).text_started then [] else [.textStart]) ++
          (match (delta.getMember "content").bind Json.asStr? with
           | some content => [StreamEvent.textDelta content]
           | none => []), ?_, ?_⟩
        · simp only [hd]
          rw [t1, pushContent_pending, startText_pending,
            (captureFinish_fields choice st).2.2.2.2.1, List.append_assoc]
        · intro e he
          rcases List.mem_append.mp he with he | he
          · split at he
            · cases he
            · rw [List.mem_singleton.mp he]; rfl
          · split at he
            · rw [List.mem_singleton.mp he]; rfl
            · cases he

theorem parse_stream_event_data (data : String) (payload : Json) (st : ProtocolStreamState)
    (h1 : rustTrim data ≠ "[DONE]") (h2 : parseJson data = some payload) :
    parse_stream_event data st =
      (match (handleDataPayload payload st).pending_events with
       | e :: rest =>
         (Except.ok (some e), { handleDataPayload payload st with pending_events := rest })
       | [] => ((Except.ok none : Except String (Option StreamEvent)),
           handleDataPayload payload st)) := by
  unfold parse_stream_event
  rw [if_neg h1, h2]

theorem pop_trace (st' : ProtocolStreamState) :
    retList (match st'.pending_events with
       | e :: rest => (Except.ok (some e), { st' with pending_events := rest })
       | [] => ((Except.ok none : Except String (Option StreamEvent)), st')).1
    ++ (match st'.pending_events with
       | e :: rest => (Except.ok (some e), { st' with pending_events := rest })
       | [] => ((Except.ok none : Except String (Option StreamEvent)), st')).2.pending_events
    = st'.pending_events := by
  cases hP : st'.pending_events with
  | nil => simp [retList, hP]
  | cons e rest => simp [retList]

theorem toolcall_not_usage (e : StreamEvent) (h : isToolCallEv e = true) :
    isUsageEv e = false := by
  cases e <;> first | rfl | (exact absurd h (by simp [isToolCallEv]))

/-- C5: a non-[DONE] frame that parses as JSON queues a Usage event
exactly when its JSON carries a usage member; the queued event takes
input_tokens from usage.prompt_tokens and output_tokens from
usage.completion_tokens (0 when absent), carries total_tokens only when
usage.total_tokens is present, and leaves both cached-token fields unset.
The first conjunct relates the events the call surfaces to the queued
block; the second characterizes exactly which Usage events that block
holds. -/
theorem c5_usage_event (data : String) (payload : Json) (st : ProtocolStreamState)
    (h1 : rustTrim data ≠ "[DONE]") (h2 : parseJson data = some payload) :
    retList (parse_stream_event data st).1 ++ (parse_stream_event data st).2.pending_events
      = st.pending_events ++ frameQueuedEvents payload st
    ∧ (frameQueuedEvents payload st).filter isUsageEv =
        (match payload.getMember "usage" with
         | some u =>
           [StreamEvent.usage (toI32 (((u.getMember "prompt_tokens").bind Json.asI64?).getD 0))
             (toI32 (((u.getMember "completion_tokens").bind Json.asI64?).getD 0))
             (((u.getMember "total_tokens").bind Json.asI64?).map toI32) none none]
         | none => []) := by
  have hU := handleUsage_pending payload st
  rcases handleChoice_pending payload (handleUsage payload st) with ⟨s1, hC, hCall⟩
  have hDP : ∃ s2 : List StreamEvent, (handleDataPayload payload st).pending_events =
      (handleChoice payload (handleUsage payload st)).pending_events ++ s2
      ∧ ∀ e ∈ s2, isToolCallEv e = true := by
    unfold handleDataPayload
    split
    · exact emit_pending_mono _ false
    · exact ⟨[], by simp, fun e he => absurd he (List.not_mem_nil e)⟩
  rcases hDP with ⟨s2, hE, hEall⟩
  have hQ : (handleDataPayload payload st).pending_events =
      st.pending_events ++
        ((match payload.getMember "usage" with
          | some u => [mkUsageEvent u]
          | none => []) ++ s1 ++ s2) := by
    rw [hE, hC, hU]
    simp [List.append_assoc]
  have hFQ : frameQueuedEvents payload st =
      (match payload.getMember "usage" with
       | some u => [mkUsageEvent u]
       | none => []) ++ s1 ++ s2 := by
    rw [frameQueuedEvents, hQ, List.drop_left]
  constructor
  · rw [parse_stream_event_data data payload st h1 h2, pop_trace, hQ, hFQ]
  · rw [hFQ]
    rw [List.filter_append, List.filter_append]
    have hf1 : s1.filter isUsageEv = [] :=
      List.filter_eq_nil_iff.mpr (fun e he => by rw [hCall e he]; exact Bool.false_ne_true)
    have hf2 : s2.filter isUsageEv = [] :=
      List.filter_eq_nil_iff.mpr
        (fun e he => by rw [toolcall_not_usage e (hEall e he)]; exact Bool.false_ne_true)
    rw [hf1, hf2, List.append_nil, List.append_nil]
    cases hu : payload.getMember "usage" with
    | some u => simp [mkUsageEvent, isUsageEv]
    | none => simp

/-- Witness for C5 at a concrete usage frame. -/
theorem c5_usage_event_witness :
    retList (parse_stream_event c5Data initialState).1
      ++ (parse_stream_event c5Data initialState).2.pending_events
      = initialState.pending_events ++ frameQueuedEvents c5Payload initialState
    ∧ (frameQueuedEvents c5Payload initialState).filter isUsageEv =
        (match c5Payload.getMember "usage" with
         | some u =>
           [StreamEvent.usage (toI32 (((u.getMember "prompt_tokens").bind Json.asI64?).getD 0))
             (toI32 (((u.getMember "completion_tokens").bind Json.asI64?).getD 0))
             (((u.getMember "total_tokens").bind Json.asI64?).map toI32) none none]
         | none => []) :=
  c5_usage_event c5Data c5Payload initialState (by decide) (by decide)

theorem emitKey_fields (f : Bool) (st : ProtocolStreamState) (k : String) :
    (emitKey f st k).tool_calls = st.tool_calls
    ∧ (emitKey f st k).tool_call_order = st.tool_call_order
    ∧ (emitKey f st k).text_started = st.text_started
    ∧ (emitKey f st k).tool_call_index_map = st.tool_call_index_map := by
  unfold emitKey
  split
  · exact ⟨rfl, rfl, rfl, rfl⟩
  · split
    · exact ⟨rfl, rfl, rfl, rfl⟩
    · split
      · exact ⟨rfl, rfl, rfl, rfl⟩
      · split
        · exact ⟨rfl, rfl, rfl, rfl⟩
        · exact ⟨rfl, rfl, rfl, rfl⟩

theorem emitKey_emitted (f : Bool) (st : ProtocolStreamState) (k : String) :
    (emitKey f st k).emitted_tool_calls =
      st.emitted_tool_calls ++ (if passKey st f k then [k] else []) := by
  by_cases h1 : k ∈ st.emitted_tool_calls
  · have hc : st.emitted_tool_calls.contains k = true := List.elem_iff.mpr h1
    simp [emitKey, h1, passKey, hc]
  · have hc : st.emitted_tool_calls.contains k = false := contains_eq_false_of_not_mem h1
    cases h2 : alookup st.tool_calls k with
    | none => simp [emitKey, h1, h2, passKey, hc]
    | some acc =>
      by_cases h3 : acc.tool_name = ""
      · simp [emitKey, h1, h2, h3, passKey, hc]
      · by_cases h4 : rustTrim acc.arguments = ""
        · cases f with
          | false => simp [emitKey, h1, h2, h3, h4, passKey, hc]
          | true => simp [emitKey, h1, h2, h3, h4, passKey, hc]
        · simp [emitKey, h1, h2, h3, h4, passKey, hc]

theorem contains_eq_true_of_mem {l : List String} {k : String} (h : k ∈ l) :
    l.contains k = true :=
  List.elem_iff.mpr h

theorem contains_append_single (l : List String) (k x : String) (h : x ≠ k) :
    (l ++ [k]).contains x = l.contains x := by
  by_cases hm : x ∈ l
  · rw [contains_eq_true_of_mem hm, contains_eq_true_of_mem (List.mem_append_left [k] hm)]
  · have hnx : x ∉ l ++ [k] := by
      intro hx
      rcases List.mem_append.mp hx with hx | hx
      · exact hm hx
      · exact h (List.mem_singleton.mp hx)
    rw [contains_eq_false_of_not_mem hnx, contains_eq_false_of_not_mem hm]

theorem emit_fold_char (l : List String) (f : Bool) :
    ∀ st : ProtocolStreamState, l.Nodup →
      (l.foldl (emitKey f) st).pending_events =
        st.pending_events ++
          (l.filter (passKey st f)).filterMap
            (fun k => (alookup st.tool_calls k).map mkEmitEvent) := by
  induction l with
  | nil => intro st _; simp
  | cons k t ih =>
    intro st hnd
    rw [List.nodup_cons] at hnd
    rw [List.foldl_cons, ih (emitKey f st k) hnd.2]
    have hpk : ∀ k2 ∈ t, passKey (emitKey f st k) f k2 = passKey st f k2 := by
      intro k2 hk2
      have hne : k2 ≠ k := fun he => hnd.1 (he ▸ hk2)
      unfold passKey
      rw [(emitKey_fields f st k).1, emitKey_emitted]
      cases hp : passKey st f k with
      | false => simp
      | true => rw [if_pos rfl, contains_append_single _ k k2 hne]
    have hfun : (fun k2 => (alookup (emitKey f st k).tool_calls k2).map mkEmitEvent) =
        (fun k2 => (alookup st.tool_calls k2).map mkEmitEvent) := by
      funext k2
      rw [(emitKey_fields f st k).1]
    rw [List.filter_congr hpk, hfun, emitKey_pending]
    rw [List.filter_cons]
    cases hpass : passKey st f k with
    | false => simp [emitEventsFor, hpass]
    | true =>
      cases hl : alookup st.tool_calls k with
      | none => simp [emitEventsFor, hpass, List.filterMap_cons, hl]
      | some acc => simp [emitEventsFor, hpass, List.filterMap_cons, hl, List.append_assoc]

/-- C4 (amended): the flush walks tool_call_order and, for every key that
qualifies (not yet emitted, non-empty name, and non-whitespace arguments
unless forced), appends exactly the ToolCall event whose input is the
empty JSON object when the accumulated buffer trims to empty, and
otherwise the buffer parsed as JSON, falling back to wrapping the raw
buffer as a JSON string value when that parse fails; malformed or
incomplete arguments never produce an error.  The second conjunct spells
the synthesized event out for each emitted accumulator. -/
theorem c4_emit_arguments (st : ProtocolStreamState) (force : Bool)
    (hnd : st.tool_call_order.Nodup) :
    (emit_tool_calls st force).pending_events =
      st.pending_events ++
        (st.tool_call_order.filter (passKey st force)).filterMap
          (fun k => (alookup st.tool_calls k).map mkEmitEvent)
    ∧ ∀ k acc, k ∈ st.tool_call_order → passKey st force k = true →
        alookup st.tool_calls k = some acc →
        StreamEvent.toolCall acc.tool_call_id acc.tool_name
          (if rustTrim acc.arguments = "" then Json.obj []
           else
             match parseJson acc.arguments with
             | some v => v
             | none => Json.str acc.arguments)
          ∈ (emit_tool_calls st force).pending_events := by
  have hchar := emit_fold_char st.tool_call_order force st hnd
  refine ⟨hchar, ?_⟩
  intro k acc hmem hpass hl
  rw [emit_tool_calls] at *
  rw [hchar]
  apply List.mem_append_right
  apply List.mem_filterMap.mpr
  refine ⟨k, List.mem_filter.mpr ⟨hmem, hpass⟩, ?_⟩
  rw [hl]
  rfl

/-- Counterexample to C4 as stated: under the forced flush an accumulator
with an empty arguments buffer is emitted with input equal to the empty
JSON object, not the JSON string value wrapping the raw (empty) buffer
that the claim's fallback clause mandates for a failed parse. -/
theorem c4_counterexample :
    (emit_tool_calls c4State true).pending_events
      = [.toolCall "c1" "f" (.obj [])]
    ∧ parseJson "" = none
    ∧ Json.obj [] ≠ Json.str "" :=
  ⟨by decide, by decide, fun h => Json.noConfusion h⟩

/-- Witness for the amended C4 at the concrete empty-buffer state. -/
theorem c4_emit_arguments_witness :
    (emit_tool_calls c4State true).pending_events =
      c4State.pending_events ++
        (c4State.tool_call_order.filter (passKey c4State true)).filterMap
          (fun k => (alookup c4State.tool_calls k).map mkEmitEvent)
    ∧ ∀ k acc, k ∈ c4State.tool_call_order → passKey c4State true k = true →
        alookup c4State.tool_calls k = some acc →
        StreamEvent.toolCall acc.tool_call_id acc.tool_name
          (if rustTrim acc.arguments = "" then Json.obj []
           else
             match parseJson acc.arguments with
             | some v => v
             | none => Json.str acc.arguments)
          ∈ (emit_tool_calls c4State true).pending_events :=
  c4_emit_arguments c4State true (by decide)

theorem accAddArgs_id_name (entry : Json) (acc : ToolCallAccum) :
    (accAddArgs entry acc).tool_call_id = acc.tool_call_id
    ∧ (accAddArgs entry acc).tool_name = acc.tool_name := by
  unfold accAddArgs
  split
  · split
    · exact ⟨rfl, rfl⟩
    · exact ⟨rfl, rfl⟩
  · split
    · exact ⟨rfl, rfl⟩
    · exact ⟨rfl, rfl⟩
  · exact ⟨rfl, rfl⟩

theorem entryAccUpdate_id (entry : Json) (k : String) (acc : ToolCallAccum) :
    (entryAccUpdate entry k (some acc)).tool_call_id =
      (if entryId entry ≠ "" then entryId entry else acc.tool_call_id) := by
  unfold entryAccUpdate
  rw [(accAddArgs_id_name entry _).1]
  unfold accSetName accCreate
  split
  · unfold accSetId
    split
    · rfl
    · rfl
  · unfold accSetId
    split
    · rfl
    · rfl

theorem entryAccUpdate_name (entry : Json) (k : String) (acc : ToolCallAccum) :
    (entryAccUpdate entry k (some acc)).tool_name =
      (if entryName entry ≠ "" then entryName entry else acc.tool_name) := by
  unfold entryAccUpdate
  rw [(accAddArgs_id_name entry _).2]
  unfold accSetName accSetId accCreate
  split
  · rfl
  · split
    · rfl
    · rfl

theorem applyAccum_tool_calls (st : ProtocolStreamState) (key : String) (acc : ToolCallAccum) :
    (applyAccum st key acc).tool_calls = aupdate st.tool_calls key acc := by
  unfold applyAccum
  split <;> rfl

/-- C7: for an accumulator stored under key k, processing one tool_calls
entry leaves its tool_call_id and tool_name unchanged unless the entry
resolves to k and carries a non-empty id (respectively name), in which
case the incoming value overwrites the stored one (last-write-wins, an
empty or absent incoming value never overwrites). -/
theorem c7_last_write_wins (st : ProtocolStreamState) (entry : Json) (k : String)
    (acc : ToolCallAccum) (hk : k ≠ "") (h : alookup st.tool_calls k = some acc) :
    ∃ args : String, alookup (processEntry st entry).tool_calls k = some
      { tool_call_id :=
          if resolvedKey st entry = k ∧ entryId entry ≠ "" then entryId entry
          else acc.tool_call_id
        tool_name :=
          if resolvedKey st entry = k ∧ entryName entry ≠ "" then entryName entry
          else acc.tool_name
        arguments := args } := by
  have hmc : (memoIndex st entry).tool_calls = st.tool_calls := (memoIndex_fields st entry).1
  unfold processEntry
  by_cases hz : resolvedKey st entry = ""
  · rw [if_pos hz]
    have hc1 : ¬(resolvedKey st entry = k ∧ entryId entry ≠ "") :=
      fun hcon => hk (by rw [← hcon.1]; exact hz)
    have hc2 : ¬(resolvedKey st entry = k ∧ entryName entry ≠ "") :=
      fun hcon => hk (by rw [← hcon.1]; exact hz)
    rw [if_neg hc1, if_neg hc2]
    exact ⟨acc.arguments, by rw [hmc, h]⟩
  · rw [if_neg hz]
    rw [applyAccum_tool_calls, hmc]
    by_cases hkey : resolvedKey st entry = k
    · rw [hkey, h, alookup_aupdate_self]
      refine ⟨(entryAccUpdate entry k (some acc)).arguments, ?_⟩
      congr 1
      have hid := entryAccUpdate_id entry k acc
      have hnm := entryAccUpdate_name entry k acc
      by_cases hid2 : entryId entry ≠ "" <;> by_cases hnm2 : entryName entry ≠ ""
      · rw [if_pos ⟨rfl, hid2⟩, if_pos ⟨rfl, hnm2⟩]
        rw [if_pos hid2] at hid
        rw [if_pos hnm2] at hnm
        cases he : entryAccUpdate entry k (some acc) with
        | mk a b c =>
          rw [he] at hid hnm
          simp at hid hnm
          rw [hid, hnm]
      · rw [if_pos ⟨rfl, hid2⟩, if_neg (fun hcon => hnm2 hcon.2)]
        rw [if_pos hid2] at hid
        rw [if_neg hnm2] at hnm
        cases he : entryAccUpdate entry k (some acc) with
        | mk a b c =>
          rw [he] at hid hnm
          simp at hid hnm
          rw [hid, hnm]
      · rw [if_neg (fun hcon => hid2 hcon.2), if_pos ⟨rfl, hnm2⟩]
        rw [if_neg hid2] at hid
        rw [if_pos hnm2] at hnm
        cases he : entryAccUpdate entry k (some acc) with
        | mk a b c =>
          rw [he] at hid hnm
          simp at hid hnm
          rw [hid, hnm]
      · rw [if_neg (fun hcon => hid2 hcon.2), if_neg (fun hcon => hnm2 hcon.2)]
        rw [if_neg hid2] at hid
        rw [if_neg hnm2] at hnm
        cases he : entryAccUpdate entry k (some acc) with
        | mk a b c =>
          rw [he] at hid hnm
          simp at hid hnm
          rw [hid, hnm]
    · rw [alookup_aupdate_ne _ _ _ _ hkey, h]
      rw [if_neg (fun hcon => hkey hcon.1), if_neg (fun hcon => hkey hcon.1)]
      exact ⟨acc.arguments, rfl⟩

/-- Witness for C7 at a concrete accumulator and entry. -/
theorem c7_last_write_wins_witness :
    ∃ args : String, alookup (processEntry c7State c7Entry).tool_calls "idA" = some
      { tool_call_id :=
          if resolvedKey c7State c7Entry = "idA" ∧ entryId c7Entry ≠ "" then entryId c7Entry
          else (⟨"idA", "nameA", "x"⟩ : ToolCallAccum).tool_call_id
        tool_name :=
          if resolvedKey c7State c7Entry = "idA" ∧ entryName c7Entry ≠ "" then entryName c7Entry
          else (⟨"idA", "nameA", "x"⟩ : ToolCallAccum).tool_name
        arguments := args } :=
  c7_last_write_wins c7State c7Entry "idA" ⟨"idA", "nameA", "x"⟩ (by decide) (by decide)

theorem toolIds_append (a b : List StreamEvent) : toolIds (a ++ b) = toolIds a ++ toolIds b :=
  List.filterMap_append a b _

theorem toolIds_nil_of_nontool (s : List StreamEvent) (h : ∀ e ∈ s, isToolCallEv e = false) :
    toolIds s = [] := by
  apply List.filterMap_eq_nil_iff.mpr
  intro e he
  cases e with
  | toolCall a b c => exact absurd (h _ he) (by simp [isToolCallEv])
  | textStart => rfl
  | textDelta t => rfl
  | usage a b c d f => rfl
  | error m => rfl
  | done fr => rfl

theorem resolvedKey_of_id (e : Json) (h : entryId e ≠ "") (st : ProtocolStreamState) :
    resolvedKey st e = entryId e := by
  unfold resolvedKey resolvedKeyPost
  rw [if_pos h]

theorem accSetName_id (e : Json) (a : ToolCallAccum) :
    (accSetName e a).tool_call_id = a.tool_call_id := by
  unfold accSetName
  split <;> rfl

theorem accSetId_id (e : Json) (a : ToolCallAccum) :
    (accSetId e a).tool_call_id = if entryId e ≠ "" then entryId e else a.tool_call_id := by
  unfold accSetId
  split <;> rfl

theorem entryAccUpdate_id_general (e : Json) (k : String) (acc0 : Option ToolCallAccum) :
    (entryAccUpdate e k acc0).tool_call_id =
      if entryId e ≠ "" then entryId e
      else
        match acc0 with
        | some a => a.tool_call_id
        | none => k := by
  unfold entryAccUpdate
  rw [(accAddArgs_id_name e _).1, accSetName_id, accSetId_id]
  cases acc0 with
  | some a => rfl
  | none =>
    by_cases h : entryId e = ""
    · simp [h, accCreate]
    · simp [h, accCreate]

theorem processEntry_accIdInv (st : ProtocolStreamState) (e : Json)
    (h : ∀ k acc, alookup st.tool_calls k = some acc → acc.tool_call_id = k) :
    ∀ k acc, alookup (processEntry st e).tool_calls k = some acc → acc.tool_call_id = k := by
  have hmc := (memoIndex_fields st e).1
  intro k acc hl
  unfold processEntry at hl
  by_cases hz : resolvedKey st e = ""
  · rw [if_pos hz, hmc] at hl
    exact h k acc hl
  · rw [if_neg hz, applyAccum_tool_calls, hmc] at hl
    by_cases hkey : resolvedKey st e = k
    · rw [hkey, alookup_aupdate_self] at hl
      injection hl with hl
      rw [← hl, entryAccUpdate_id_general]
      by_cases hid : entryId e ≠ ""
      · rw [if_pos hid]
        exact (resolvedKey_of_id e hid st) ▸ hkey
      · rw [if_neg hid]
        cases hl0 : alookup st.tool_calls k with
        | some a0 => exact h k a0 hl0
        | none => rfl
    · rw [alookup_aupdate_ne _ _ _ _ hkey] at hl
      exact h k acc hl

theorem passKey_not_mem (st : ProtocolStreamState) (f : Bool) (k : String)
    (h : passKey st f k = true) : k ∉ st.emitted_tool_calls := by
  intro hmem
  unfold passKey at h
  rw [contains_eq_true_of_mem hmem] at h
  simp at h

theorem emitEventsFor_split (st : ProtocolStreamState) (f : Bool) (k : String) :
    emitEventsFor st f k = []
    ∨ (passKey st f k = true ∧ ∃ acc, alookup st.tool_calls k = some acc
        ∧ emitEventsFor st f k = [mkEmitEvent acc]) := by
  unfold emitEventsFor
  cases hp : passKey st f k with
  | false => left; simp
  | true =>
    cases hl : alookup st.tool_calls k with
    | none => left; simp
    | some acc => right; exact ⟨rfl, acc, rfl, by simp⟩

theorem c2Inv_emitKey (f : Bool) (st : ProtocolStreamState) (k : String)
    (evs : List StreamEvent) (h : c2Inv st evs) : c2Inv (emitKey f st k) evs := by
  obtain ⟨h1, h2, h3⟩ := h
  have hpend := emitKey_pending f st k
  have hemit := emitKey_emitted f st k
  have hfields := emitKey_fields f st k
  refine ⟨?_, ?_, ?_⟩
  · intro k2 acc hl
    rw [hfields.1] at hl
    exact h1 k2 acc hl
  · intro id hid
    rw [hpend, ← List.append_assoc, toolIds_append] at hid
    rcases List.mem_append.mp hid with hid | hid
    · rw [hemit]
      exact List.mem_append_left _ (h2 id hid)
    · rcases emitEventsFor_split st f k with hnil | ⟨hpass, acc, hl, heq⟩
      · rw [hnil] at hid; cases hid
      · rw [heq] at hid
        have hidk : id = acc.tool_call_id := by
          simpa [toolIds, mkEmitEvent] using hid
        rw [hidk, h1 k acc hl, hemit, if_pos hpass]
        exact List.mem_append_right _ (List.mem_singleton.mpr rfl)
  · rw [hpend, ← List.append_assoc, toolIds_append]
    rcases emitEventsFor_split st f k with hnil | ⟨hpass, acc, hl, heq⟩
    · rw [hnil]
      have hte : toolIds ([] : List StreamEvent) = [] := rfl
      rw [hte, List.append_nil]
      exact h3
    · rw [heq]
      have hids : toolIds [mkEmitEvent acc] = [acc.tool_call_id] := rfl
      rw [hids]
      rw [List.nodup_append]
      refine ⟨h3, List.nodup_singleton _, ?_⟩
      intro x hx
      rw [h1 k acc hl]
      intro hxk
      have hxk2 : x = k := List.mem_singleton.mp hxk
      rw [hxk2] at hx
      exact (passKey_not_mem st f k hpass) (h2 k hx)

theorem c2Inv_emit_fold (l : List String) (f : Bool) :
    ∀ (st : ProtocolStreamState) (evs : List StreamEvent),
      c2Inv st evs → c2Inv (l.foldl (emitKey f) st) evs := by
  induction l with
  | nil => intro st evs h; exact h
  | cons k t ih =>
    intro st evs h
    rw [List.foldl_cons]
    exact ih _ _ (c2Inv_emitKey f st k evs h)

theorem c2Inv_emit (st : ProtocolStreamState) (f : Bool) (evs : List StreamEvent)
    (h : c2Inv st evs) : c2Inv (emit_tool_calls st f) evs :=
  c2Inv_emit_fold st.tool_call_order f st evs h

theorem c2Inv_pending_nontool (st st' : ProtocolStreamState) (evs : List StreamEvent)
    (s : List StreamEvent)
    (htc : st'.tool_calls = st.tool_calls)
    (hem : st'.emitted_tool_calls = st.emitted_tool_calls)
    (hp : st'.pending_events = st.pending_events ++ s)
    (hs : ∀ e ∈ s, isToolCallEv e = false)
    (h : c2Inv st evs) : c2Inv st' evs := by
  obtain ⟨h1, h2, h3⟩ := h
  have hids : toolIds (evs ++ st'.pending_events) = toolIds (evs ++ st.pending_events) := by
    rw [hp, ← List.append_assoc, toolIds_append, toolIds_nil_of_nontool s hs, List.append_nil]
  refine ⟨?_, ?_, ?_⟩
  · intro k acc hl
    rw [htc] at hl
    exact h1 k acc hl
  · intro id hid
    rw [hids] at hid
    rw [hem]
    exact h2 id hid
  · rw [hids]
    exact h3

theorem c2Inv_processEntry (st : ProtocolStreamState) (e : Json) (evs : List StreamEvent)
    (h : c2Inv st evs) : c2Inv (processEntry st e) evs := by
  obtain ⟨h1, h2, h3⟩ := h
  rcases processEntry_frame_fields st e with ⟨p1, p2, _, _⟩
  refine ⟨processEntry_accIdInv st e h1, ?_, ?_⟩
  · intro id hid
    rw [p1] at hid
    rw [p2]
    exact h2 id hid
  · rw [p1]
    exact h3

theorem c2Inv_ptd_fold (entries : List Json) :
    ∀ (st : ProtocolStreamState) (evs : List StreamEvent),
      c2Inv st evs → c2Inv (entries.foldl processEntry st) evs := by
  induction entries with
  | nil => intro st evs h; exact h
  | cons e t ih =>
    intro st evs h
    rw [List.foldl_cons]
    exact ih _ _ (c2Inv_processEntry st e evs h)

theorem c2Inv_parse_tool_delta (d : Json) (st : ProtocolStreamState) (evs : List StreamEvent)
    (h : c2Inv st evs) : c2Inv (parse_tool_delta d st) evs := by
  unfold parse_tool_delta
  split
  · exact h
  · exact c2Inv_ptd_fold _ st evs h

theorem c2Inv_handleUsage (p : Json) (st : ProtocolStreamState) (evs : List StreamEvent)
    (h : c2Inv st evs) : c2Inv (handleUsage p st) evs := by
  rcases handleUsage_fields p st with ⟨f1, _, f3, _, _, _⟩
  refine c2Inv_pending_nontool st (handleUsage p st) evs
    (match p.getMember "usage" with
     | some u => [mkUsageEvent u]
     | none => []) f1 f3 (handleUsage_pending p st) ?_ h
  intro e he
  cases hu : p.getMember "usage" with
  | some u =>
    rw [hu] at he
    rw [List.mem_singleton.mp he, mkUsageEvent]
    rfl
  | none =>
    rw [hu] at he
    cases he

theorem c2Inv_captureFinish (c : Json) (st : ProtocolStreamState) (evs : List StreamEvent)
    (h : c2Inv st evs) : c2Inv (captureFinish c st) evs := by
  rcases captureFinish_fields c st with ⟨f1, _, f3, _, f5, _⟩
  refine c2Inv_pending_nontool st (captureFinish c st) evs [] f1 f3 ?_ ?_ h
  · rw [f5, List.append_nil]
  · intro e he; cases he

theorem c2Inv_startText (st : ProtocolStreamState) (evs : List StreamEvent)
    (h : c2Inv st evs) : c2Inv (startText st) evs := by
  rcases startText_fields st with ⟨f1, _, f3, _, _⟩
  refine c2Inv_pending_nontool st (startText st) evs
    (if st.text_started then [] else [.textStart]) f1 f3 (startText_pending st) ?_ h
  intro e he
  by_cases hts : st.text_started
  · rw [if_pos hts] at he; cases he
  · rw [if_neg hts] at he
    rw [List.mem_singleton.mp he]
    rfl

theorem c2Inv_pushContent (d : Json) (st : ProtocolStreamState) (evs : List StreamEvent)
    (h : c2Inv st evs) : c2Inv (pushContent d st) evs := by
  rcases pushContent_fields d st with ⟨f1, _, f3, _, _, _⟩
  refine c2Inv_pending_nontool st (pushContent d st) evs
    (match (d.getMember "content").bind Json.asStr? with
     | some content => [.textDelta content]
     | none => []) f1 f3 (pushContent_pending d st) ?_ h
  intro e he
  cases hc : (d.getMember "content").bind Json.asStr? with
  | some content =>
    rw [hc] at he
    rw [List.mem_singleton.mp he]
    rfl
  | none =>
    rw [hc] at he
    cases he

theorem c2Inv_handleChoice (p : Json) (st : ProtocolStreamState) (evs : List StreamEvent)
    (h : c2Inv st evs) : c2Inv (handleChoice p st) evs := by
  unfold handleChoice
  split
  · split
    · exact c2Inv_parse_tool_delta _ _ evs
        (c2Inv_pushContent _ _ evs
          (c2Inv_startText _ evs (c2Inv_captureFinish _ st evs h)))
    · exact c2Inv_captureFinish _ st evs h
  · exact h

theorem c2Inv_handleDataPayload (p : Json) (st : ProtocolStreamState) (evs : List StreamEvent)
    (h : c2Inv st evs) : c2Inv (handleDataPayload p st) evs := by
  unfold handleDataPayload
  split
  · exact c2Inv_emit _ false evs (c2Inv_handleChoice p _ evs (c2Inv_handleUsage p st evs h))
  · exact c2Inv_handleChoice p _ evs (c2Inv_handleUsage p st evs h)

theorem c2Inv_shift (st' : ProtocolStreamState) (evs : List StreamEvent) (e : StreamEvent)
    (rest : List StreamEvent) (hp : st'.pending_events = e :: rest) (h : c2Inv st' evs) :
    c2Inv { st' with pending_events := rest } (evs ++ [e]) := by
  obtain ⟨h1, h2, h3⟩ := h
  have ht : toolIds ((evs ++ [e]) ++ rest) = toolIds (evs ++ st'.pending_events) := by
    rw [hp, List.append_assoc, List.singleton_append]
  refine ⟨h1, ?_, ?_⟩
  · intro id hid
    rw [ht] at hid
    exact h2 id hid
  · rw [ht]
    exact h3

theorem c2Inv_append_done (st' : ProtocolStreamState) (evs : List StreamEvent)
    (fr : Option String) (hp : st'.pending_events = []) (h : c2Inv st' evs) :
    c2Inv st' (evs ++ [.done fr]) := by
  obtain ⟨h1, h2, h3⟩ := h
  have ht : toolIds ((evs ++ [StreamEvent.done fr]) ++ st'.pending_events)
      = toolIds (evs ++ st'.pending_events) := by
    rw [hp, List.append_nil, List.append_nil, toolIds_append]
    have hte : toolIds [StreamEvent.done fr] = [] := rfl
    rw [hte, List.append_nil]
  refine ⟨h1, ?_, ?_⟩
  · intro id hid
    rw [ht] at hid
    exact h2 id hid
  · rw [ht]
    exact h3

theorem c2Inv_step (d : String) (st : ProtocolStreamState) (evs : List StreamEvent)
    (h : c2Inv st evs) :
    c2Inv (parse_stream_event d st).2 (evs ++ retList (parse_stream_event d st).1) := by
  unfold parse_stream_event
  by_cases hdone : rustTrim d = "[DONE]"
  · rw [if_pos hdone]
    have hE : c2Inv (emit_tool_calls st true) evs := c2Inv_emit st true evs h
    cases hp : (emit_tool_calls st true).pending_events with
    | nil =>
      simp only [hp, retList]
      exact c2Inv_append_done _ evs _ hp hE
    | cons e rest =>
      simp only [hp, retList]
      exact c2Inv_shift _ evs e rest hp hE
  · rw [if_neg hdone]
    cases hj : parseJson d with
    | none =>
      simp only [hj, retList, List.append_nil]
      exact h
    | some payload =>
      simp only [hj]
      have hH : c2Inv (handleDataPayload payload st) evs :=
        c2Inv_handleDataPayload payload st evs h
      cases hp : (handleDataPayload payload st).pending_events with
      | nil =>
        simp only [hp, retList, List.append_nil]
        exact hH
      | cons e rest =>
        simp only [hp, retList]
        exact c2Inv_shift _ evs e rest hp hH

theorem c2Inv_run (datas : List String) :
    ∀ p : ProtocolStreamState × List StreamEvent, c2Inv p.1 p.2 →
      c2Inv (datas.foldl stepFrame p).1 (datas.foldl stepFrame p).2 := by
  induction datas with
  | nil => intro p h; exact h
  | cons d t ih =>
    intro p h
    rw [List.foldl_cons]
    exact ih (stepFrame p d) (c2Inv_step d p.1 p.2 h)

/-- C2: over any sequence of frames parsed against one initially-empty
ProtocolStreamState, the tool_call_ids of the ToolCall events surfaced
(returned by the calls, or still queued at the end) are pairwise
distinct: once a key enters emitted_tool_calls no later delta, flush or
[DONE] handling produces a second ToolCall for it. -/
theorem c2_tool_call_unique (datas : List String) :
    (toolIds (producedEvents datas)).Nodup := by
  have h1i : ∀ k acc, alookup initialState.tool_calls k = some acc → acc.tool_call_id = k := by
    intro k acc hl
    cases hl
  have h2i : ∀ id, id ∈ toolIds (([] : List StreamEvent) ++ initialState.pending_events) →
      id ∈ initialState.emitted_tool_calls := by
    intro id hid
    cases hid
  have h3i : (toolIds (([] : List StreamEvent) ++ initialState.pending_events)).Nodup :=
    List.nodup_nil
  have hinit : c2Inv initialState [] := ⟨h1i, h2i, h3i⟩
  have h := c2Inv_run datas (initialState, []) hinit
  exact h.2.2

theorem toolcall_not_start (e : StreamEvent) (h : isToolCallEv e = true) :
    isStartEv e = false := by
  cases e <;> first | rfl | (exact absurd h (by simp [isToolCallEv]))

theorem toolcall_not_delta (e : StreamEvent) (h : isToolCallEv e = true) :
    isDeltaEv e = false := by
  cases e <;> first | rfl | (exact absurd h (by simp [isToolCallEv]))

theorem takeWhile_all_eq {α : Type} (p : α → Bool) (l : List α)
    (h : ∀ x ∈ l, p x = true) : l.takeWhile p = l := by
  induction l with
  | nil => rfl
  | cons a t ih =>
    rw [List.takeWhile_cons, h a (List.mem_cons_self a t)]
    rw [if_pos rfl, ih (fun x hx => h x (List.mem_cons_of_mem a hx))]

theorem ndbs_append_nondelta (l : List StreamEvent) (x : StreamEvent)
    (hx : isDeltaEv x = false) (h : noDeltaBeforeStart l) :
    noDeltaBeforeStart (l ++ [x]) := by
  unfold noDeltaBeforeStart at *
  induction l with
  | nil =>
    rw [List.nil_append]
    cases hsx : isStartEv x with
    | true => simp [List.takeWhile_cons, hsx]
    | false => simp [List.takeWhile_cons, hsx, hx]
  | cons a t ih =>
    rw [List.cons_append, List.takeWhile_cons] at *
    cases hsa : isStartEv a with
    | true => simp [hsa]
    | false =>
      rw [hsa] at h
      rw [if_pos (show ((!false) = true) from rfl)] at h ⊢
      rw [List.all_cons, Bool.and_eq_true] at h ⊢
      exact ⟨h.1, ih h.2⟩

theorem ndbs_append_start (l : List StreamEvent) (x : StreamEvent)
    (hx : isStartEv x = true) (h : noDeltaBeforeStart l) :
    noDeltaBeforeStart (l ++ [x]) := by
  unfold noDeltaBeforeStart at *
  induction l with
  | nil =>
    rw [List.nil_append]
    simp [List.takeWhile_cons, hx]
  | cons a t ih =>
    rw [List.cons_append, List.takeWhile_cons] at *
    cases hsa : isStartEv a with
    | true => simp [hsa]
    | false =>
      rw [hsa] at h
      rw [if_pos (show ((!false) = true) from rfl)] at h ⊢
      rw [List.all_cons, Bool.and_eq_true] at h ⊢
      exact ⟨h.1, ih h.2⟩

theorem ndbs_append_of_start_present (l : List StreamEvent) (x : StreamEvent)
    (hs : ∃ e ∈ l, isStartEv e = true) (h : noDeltaBeforeStart l) :
    noDeltaBeforeStart (l ++ [x]) := by
  unfold noDeltaBeforeStart at *
  induction l with
  | nil =>
    rcases hs with ⟨e, he, _⟩
    cases he
  | cons a t ih =>
    rw [List.cons_append, List.takeWhile_cons] at *
    cases hsa : isStartEv a with
    | true => simp [hsa]
    | false =>
      rw [hsa] at h
      rw [if_pos (show ((!false) = true) from rfl)] at h ⊢
      rw [List.all_cons, Bool.and_eq_true] at h ⊢
      refine ⟨h.1, ih ?_ h.2⟩
      rcases hs with ⟨e, he, hse⟩
      rcases List.mem_cons.mp he with he | he
      · rw [he] at hse
        rw [hse] at hsa
        cases hsa
      · exact ⟨e, he, hse⟩

theorem ndbs_append_list (l : List StreamEvent) (s : List StreamEvent)
    (hs : ∀ e ∈ s, isDeltaEv e = false) (h : noDeltaBeforeStart l) :
    noDeltaBeforeStart (l ++ s) := by
  induction s generalizing l with
  | nil => rw [List.append_nil]; exact h
  | cons e t ih =>
    have : l ++ e :: t = (l ++ [e]) ++ t := by
      rw [List.append_assoc, List.singleton_append]
    rw [this]
    exact ih (l ++ [e])
      (fun x hx => hs x (List.mem_cons_of_mem e hx))
      (ndbs_append_nondelta l e (hs e (List.mem_cons_self e t)) h)

theorem countP_start_append_none (l : List StreamEvent) (s : List StreamEvent)
    (hs : ∀ e ∈ s, isStartEv e = false) :
    (l ++ s).countP (fun e => isStartEv e) = l.countP (fun e => isStartEv e) := by
  rw [List.countP_append]
  have : s.countP (fun e => isStartEv e) = 0 := by
    rw [List.countP_eq_zero]
    intro e he
    rw [hs e he]
    exact Bool.false_ne_true
  rw [this, Nat.add_zero]

theorem c6Inv_append_neutral (st st' : ProtocolStreamState) (evs : List StreamEvent)
    (s : List StreamEvent)
    (hp : st'.pending_events = st.pending_events ++ s)
    (hts : st'.text_started = st.text_started)
    (hs : ∀ e ∈ s, isStartEv e = false ∧ isDeltaEv e = false)
    (h : c6Inv st evs) : c6Inv st' evs := by
  obtain ⟨h1, h2⟩ := h
  constructor
  · rw [hp, ← List.append_assoc, countP_start_append_none _ s (fun e he => (hs e he).1), h1, hts]
  · rw [hp, ← List.append_assoc]
    exact ndbs_append_list _ s (fun e he => (hs e he).2) h2

theorem startText_started (st : ProtocolStreamState) : (startText st).text_started = true := by
  unfold startText
  split
  · assumption
  · rfl

theorem c6Inv_handleUsage (p : Json) (st : ProtocolStreamState) (evs : List StreamEvent)
    (h : c6Inv st evs) : c6Inv (handleUsage p st) evs := by
  refine c6Inv_append_neutral st (handleUsage p st) evs
    (match p.getMember "usage" with
     | some u => [mkUsageEvent u]
     | none => []) (handleUsage_pending p st) (handleUsage_fields p st).2.2.2.1 ?_ h
  intro e he
  cases hu : p.getMember "usage" with
  | some u =>
    rw [hu] at he
    rw [List.mem_singleton.mp he, mkUsageEvent]
    exact ⟨rfl, rfl⟩
  | none =>
    rw [hu] at he
    cases he

theorem c6Inv_captureFinish (c : Json) (st : ProtocolStreamState) (evs : List StreamEvent)
    (h : c6Inv st evs) : c6Inv (captureFinish c st) evs := by
  refine c6Inv_append_neutral st (captureFinish c st) evs [] ?_
    (captureFinish_fields c st).2.2.2.1 (fun e he => absurd he (List.not_mem_nil e)) h
  rw [(captureFinish_fields c st).2.2.2.2.1, List.append_nil]

theorem c6Inv_startText (st : ProtocolStreamState) (evs : List StreamEvent)
    (h : c6Inv st evs) : c6Inv (startText st) evs := by
  obtain ⟨h1, h2⟩ := h
  by_cases hts : st.text_started
  · have hst : startText st = st := by
      unfold startText
      rw [if_pos hts]
    rw [hst]
    exact ⟨h1, h2⟩
  · have hp : (startText st).pending_events = st.pending_events ++ [.textStart] := by
      rw [startText_pending, if_neg hts]
    constructor
    · rw [hp, ← List.append_assoc, List.countP_append, startText_started]
      rw [if_neg hts] at h1
      rw [h1]
      rfl
    · rw [hp, ← List.append_assoc]
      exact ndbs_append_start _ _ rfl h2

theorem c6Inv_pushContent (d : Json) (st : ProtocolStreamState) (evs : List StreamEvent)
    (hts : st.text_started = true) (h : c6Inv st evs) : c6Inv (pushContent d st) evs := by
  obtain ⟨h1, h2⟩ := h
  rw [hts, if_pos rfl] at h1
  have hf := pushContent_fields d st
  cases hc : (d.getMember "content").bind Json.asStr? with
  | none =>
    have hpn : (pushContent d st).pending_events = st.pending_events := by
      rw [pushContent_pending, hc, List.append_nil]
    constructor
    · rw [hpn, hf.2.2.2.1, hts, if_pos rfl]
      exact h1
    · rw [hpn]
      exact h2
  | some content =>
    have hpn : (pushContent d st).pending_events =
        st.pending_events ++ [.textDelta content] := by
      rw [pushContent_pending, hc]
    constructor
    · rw [hpn, ← List.append_assoc, countP_start_append_none _ _ (fun e he => by
        rw [List.mem_singleton.mp he]; rfl), hf.2.2.2.1, hts, if_pos rfl]
      exact h1
    · rw [hpn, ← List.append_assoc]
      apply ndbs_append_of_start_present _ _ ?_ h2
      have hpos : 0 < (evs ++ st.pending_events).countP (fun e => isStartEv e) := by
        rw [h1]
        exact Nat.zero_lt_one
      rcases List.countP_pos_iff.mp hpos with ⟨e, he, hse⟩
      exact ⟨e, he, hse⟩

theorem c6Inv_parse_tool_delta (d : Json) (st : ProtocolStreamState) (evs : List StreamEvent)
    (h : c6Inv st evs) : c6Inv (parse_tool_delta d st) evs := by
  obtain ⟨h1, h2⟩ := h
  rcases parse_tool_delta_frame_fields d st with ⟨p1, _, p3, _⟩
  constructor
  · rw [p1, p3]
    exact h1
  · rw [p1]
    exact h2

theorem c6Inv_emitKey (f : Bool) (st : ProtocolStreamState) (k : String)
    (evs : List StreamEvent) (h : c6Inv st evs) : c6Inv (emitKey f st k) evs := by
  refine c6Inv_append_neutral st (emitKey f st k) evs (emitEventsFor st f k)
    (emitKey_pending f st k) (emitKey_fields f st k).2.2.1 ?_ h
  intro e he
  have ht := emitEventsFor_toolcall st f k e he
  exact ⟨toolcall_not_start e ht, toolcall_not_delta e ht⟩

theorem c6Inv_emit_fold (l : List String) (f : Bool) :
    ∀ (st : ProtocolStreamState) (evs : List StreamEvent),
      c6Inv st evs → c6Inv (l.foldl (emitKey f) st) evs := by
  induction l with
  | nil => intro st evs h; exact h
  | cons k t ih =>
    intro st evs h
    rw [List.foldl_cons]
    exact ih _ _ (c6Inv_emitKey f st k evs h)

theorem c6Inv_emit (st : ProtocolStreamState) (f : Bool) (evs : List StreamEvent)
    (h : c6Inv st evs) : c6Inv (emit_tool_calls st f) evs :=
  c6Inv_emit_fold st.tool_call_order f st evs h

theorem c6Inv_handleChoice (p : Json) (st : ProtocolStreamState) (evs : List StreamEvent)
    (h : c6Inv st evs) : c6Inv (handleChoice p st) evs := by
  unfold handleChoice
  split
  · split
    · exact c6Inv_parse_tool_delta _ _ evs
        (c6Inv_pushContent _ _ evs (startText_started _)
          (c6Inv_startText _ evs (c6Inv_captureFinish _ st evs h)))
    · exact c6Inv_captureFinish _ st evs h
  · exact h

theorem c6Inv_handleDataPayload (p : Json) (st : ProtocolStreamState) (evs : List StreamEvent)
    (h : c6Inv st evs) : c6Inv (handleDataPayload p st) evs := by
  unfold handleDataPayload
  split
  · exact c6Inv_emit _ false evs (c6Inv_handleChoice p _ evs (c6Inv_handleUsage p st evs h))
  · exact c6Inv_handleChoice p _ evs (c6Inv_handleUsage p st evs h)

theorem c6Inv_shift (st' : ProtocolStreamState) (evs : List StreamEvent) (e : StreamEvent)
    (rest : List StreamEvent) (hp : st'.pending_events = e :: rest) (h : c6Inv st' evs) :
    c6Inv { st' with pending_events := rest } (evs ++ [e]) := by
  obtain ⟨h1, h2⟩ := h
  have ht : (evs ++ [e]) ++ rest = evs ++ st'.pending_events := by
    rw [hp, List.append_assoc, List.singleton_append]
  constructor
  · show ((evs ++ [e]) ++ rest).countP (fun e => isStartEv e) = _
    rw [ht]
    exact h1
  · show noDeltaBeforeStart ((evs ++ [e]) ++ rest)
    rw [ht]
    exact h2

theorem c6Inv_append_done (st' : ProtocolStreamState) (evs : List StreamEvent)
    (fr : Option String) (hp : st'.pending_events = []) (h : c6Inv st' evs) :
    c6Inv st' (evs ++ [.done fr]) := by
  obtain ⟨h1, h2⟩ := h
  rw [hp, List.append_nil] at h1 h2
  constructor
  · rw [hp, List.append_nil, countP_start_append_none _ _ (fun e he => by
      rw [List.mem_singleton.mp he]; rfl)]
    exact h1
  · rw [hp, List.append_nil]
    exact ndbs_append_nondelta _ _ rfl h2

theorem c6Inv_step (d : String) (st : ProtocolStreamState) (evs : List StreamEvent)
    (h : c6Inv st evs) :
    c6Inv (parse_stream_event d st).2 (evs ++ retList (parse_stream_event d st).1) := by
  unfold parse_stream_event
  by_cases hdone : rustTrim d = "[DONE]"
  · rw [if_pos hdone]
    have hE : c6Inv (emit_tool_calls st true) evs := c6Inv_emit st true evs h
    cases hp : (emit_tool_calls st true).pending_events with
    | nil =>
      simp only [hp, retList]
      exact c6Inv_append_done _ evs _ hp hE
    | cons e rest =>
      simp only [hp, retList]
      exact c6Inv_shift _ evs e rest hp hE
  · rw [if_neg hdone]
    cases hj : parseJson d with
    | none =>
      simp only [hj, retList, List.append_nil]
      exact h
    | some payload =>
      simp only [hj]
      have hH : c6Inv (handleDataPayload payload st) evs :=
        c6Inv_handleDataPayload payload st evs h
      cases hp : (handleDataPayload payload st).pending_events with
      | nil =>
        simp only [hp, retList, List.append_nil]
        exact hH
      | cons e rest =>
        simp only [hp, retList]
        exact c6Inv_shift _ evs e rest hp hH

theorem c6Inv_run (datas : List String) :
    ∀ p : ProtocolStreamState × List StreamEvent, c6Inv p.1 p.2 →
      c6Inv (datas.foldl stepFrame p).1 (datas.foldl stepFrame p).2 := by
  induction datas with
  | nil => intro p h; exact h
  | cons d t ih =>
    intro p h
    rw [List.foldl_cons]
    exact ih (stepFrame p d) (c6Inv_step d p.1 p.2 h)

/-- C6: over any sequence of parse_stream_event calls on one
initially-empty ProtocolStreamState (the queued pending events drained at
the end), at most one TextStart is ever produced, no TextDelta is ever
ordered before the first TextStart, and a stream that produced at least
one TextDelta produced exactly one TextStart. -/
theorem c6_text_start_unique (datas : List String) :
    (producedEvents datas).countP (fun e => isStartEv e) ≤ 1
    ∧ noDeltaBeforeStart (producedEvents datas)
    ∧ ((∃ t, StreamEvent.textDelta t ∈ producedEvents datas) →
        (producedEvents datas).countP (fun e => isStartEv e) = 1) := by
  have hinit : c6Inv initialState [] := by
    constructor
    · rfl
    · rfl
  have h := c6Inv_run datas (initialState, []) hinit
  obtain ⟨h1, h2⟩ := h
  have hpe : producedEvents datas =
      (datas.foldl stepFrame (initialState, [])).2
        ++ (datas.foldl stepFrame (initialState, [])).1.pending_events := rfl
  refine ⟨?_, ?_, ?_⟩
  · rw [hpe, h1]
    split
    · exact Nat.le_refl 1
    · exact Nat.zero_le 1
  · rw [hpe]
    exact h2
  · rintro ⟨t, ht⟩
    rw [hpe] at ht ⊢
    rw [h1]
    cases hts : (datas.foldl stepFrame (initialState, [])).1.text_started with
    | true => rfl
    | false =>
      rw [hts] at h1
      exfalso
      have hall : ∀ x ∈ (datas.foldl stepFrame (initialState, [])).2
          ++ (datas.foldl stepFrame (initialState, [])).1.pending_events,
          (!isStartEv x) = true := by
        intro x hx
        cases hsx : isStartEv x with
        | false => rfl
        | true =>
          exfalso
          have hpos : 0 < ((datas.foldl stepFrame (initialState, [])).2
              ++ (datas.foldl stepFrame (initialState, [])).1.pending_events).countP
                (fun e => isStartEv e) :=
            List.countP_pos_iff.mpr ⟨x, hx, hsx⟩
          rw [h1] at hpos
          exact Nat.lt_irrefl 0 hpos
      have htw := takeWhile_all_eq (fun e => !isStartEv e) _ hall
      unfold noDeltaBeforeStart at h2
      rw [htw] at h2
      have := List.all_eq_true.mp h2 _ ht
      simp [isDeltaEv] at this

/-- Witness for C6 at a concrete text stream: a TextDelta is produced,
so exactly one TextStart is produced. -/
theorem c6_text_start_unique_witness :
    (producedEvents [c6Data]).countP (fun e => isStartEv e) = 1 :=
  (c6_text_start_unique [c6Data]).2.2 ⟨"hi", by decide⟩

